import Mathlib

/-!
# Verification of the papercoder token-grid steganographic codec

Shallow embedding of `papercoder.py`.  Tokens are lists of characters
(Python string slices), grids are lists of rows.  The deterministic parts
of the source (anchor extraction, tokenization, grid allocation, the
tight-fit placer, the decoder) are embedded as executable functions; the
randomized parts (anchor draws, the spread placer's shuffled search, noise
generation) are embedded by passing the drawn values explicitly in an
`EncodeChoices` record together with validity predicates stating exactly
what the random primitives guarantee about the drawn values.  Python
exceptions are modelled with `Except PyErr`.
-/

/-- A token: a Python string slice (normally 2 characters). -/
abbrev Tok := List Char

/-- Anchor direction, determined by parity of the anchor's index in the
valid-anchor list (`get_direction` in the source). -/
inductive Direction
  | before
  | after
deriving DecidableEq

/-- The fatal errors encode can raise.  `noAnchor` models both the
`ValueError` of `get_random_chunk_for_direction` and the `IndexError` of
`random.choice` on an empty anchor list (the spec's `NoAnchorAvailable`);
`placementCapacity` models the tight-fit fallback's `RuntimeError` (the
spec's `PlacementCapacityExceeded`); `indexError` models Python list
index errors. -/
inductive PyErr
  | noAnchor
  | placementCapacity
  | indexError
deriving DecidableEq

/-- `raw_chunks` of `get_password_tokens`: all sliding windows
`password[i:i+2]` for `0 ≤ i < len(password) - 1`. -/
def rawChunks : List Char → List Tok
  | a :: b :: rest => [a, b] :: rawChunks (b :: rest)
  | _ => []

/-- `c[0] == c[1]` on a raw window (all raw windows have 2 characters). -/
def firstTwoEq : Tok → Bool
  | a :: b :: _ => a == b
  | _ => false

/-- `get_password_tokens`: keep each raw window unless it is repeated,
has two equal characters, or its reverse is also a raw window. -/
def get_password_tokens (password : List Char) : List Tok :=
  let raw := rawChunks password
  raw.filter fun c =>
    !(decide (raw.count c > 1)) && !(firstTwoEq c) && !(decide (c.reverse ∈ raw))

/-- `get_direction`: direction of a token from the parity of its index in
the valid-anchor list. -/
def get_direction (password : List Char) (token : Tok) : Direction :=
  let chunks := get_password_tokens password
  if chunks.indexOf token % 2 = 0 then .before else .after

/-- Elements of a list sitting at even (`true`) or odd (`false`)
positions: the candidate comprehensions of
`get_random_chunk_for_direction`. -/
def pickParity : Bool → List Tok → List Tok
  | _, [] => []
  | b, a :: rest => if b then a :: pickParity (!b) rest else pickParity (!b) rest

/-- Candidate list of `get_random_chunk_for_direction`: anchors at even
indices for `before`, at odd indices for `after`. -/
def dirCands (password : List Char) (d : Direction) : List Tok :=
  match d with
  | .before => pickParity true (get_password_tokens password)
  | .after => pickParity false (get_password_tokens password)

/-- `get_text_tokens`: non-overlapping 2-character slices
`text[i:i+2]` for `i = 0, 2, 4, ...` (a final odd slice has 1 char). -/
def get_text_tokens : List Char → List Tok
  | [] => []
  | [a] => [[a]]
  | a :: b :: rest => [a, b] :: get_text_tokens rest

/-- `len(text) % 2 != 0`. -/
def needsPadding (text : List Char) : Bool := text.length % 2 != 0

example : get_password_tokens "hello".toList =
    [['h','e'], ['e','l'], ['l','o']] := by decide

example : get_direction "hello".toList ['e','l'] = .after := by decide

example : dirCands "hello".toList .before = [['h','e'], ['l','o']] := by decide

example : get_text_tokens "abcde".toList = [['a','b'],['c','d'],['e']] := by decide

/-- Every raw password window is a 2-character token. -/
theorem mem_rawChunks_shape : ∀ (p : List Char) (t : Tok), t ∈ rawChunks p → ∃ a b, t = [a, b] := by
  intro p
  induction p with
  | nil => simp [rawChunks]
  | cons a rest ih =>
    cases rest with
    | nil => simp [rawChunks]
    | cons b rest2 =>
      intro t ht
      simp only [rawChunks, List.mem_cons] at ht
      rcases ht with h | h
      · exact ⟨a, b, h⟩
      · exact ih t h

/-- C2: anchor extraction is a pure deterministic function of the password:
`get_password_tokens` returns, in first-occurrence order (a sublist of the
raw window list), exactly the 2-character sliding windows that occur once,
have two distinct characters, and whose reverse is not a window; a
password of fewer than 2 characters yields `[]`; and for `"hello"` the
anchors are `["he", "el", "lo"]` with directions `[before, after, before]`. -/
theorem C2_anchor_extraction :
    (∀ p : List Char,
      List.Sublist (get_password_tokens p) (rawChunks p) ∧
      (∀ t : Tok, t ∈ get_password_tokens p ↔
        t ∈ rawChunks p ∧ (rawChunks p).count t = 1 ∧
        (∃ a b, t = [a, b] ∧ a ≠ b) ∧ t.reverse ∉ rawChunks p) ∧
      (p.length < 2 → get_password_tokens p = [])) ∧
    get_password_tokens "hello".toList = [['h','e'], ['e','l'], ['l','o']] ∧
    get_direction "hello".toList ['h','e'] = .before ∧
    get_direction "hello".toList ['e','l'] = .after ∧
    get_direction "hello".toList ['l','o'] = .before := by
  refine ⟨fun p => ⟨?_, ?_, ?_⟩, by decide, by decide, by decide, by decide⟩
  · simp only [get_password_tokens]
    exact List.filter_sublist _
  · intro t
    simp only [get_password_tokens]
    constructor
    · intro ht
      have hmem := List.mem_of_mem_filter ht
      have hpred := List.of_mem_filter ht
      simp only [Bool.and_eq_true, Bool.not_eq_true', decide_eq_false_iff_not] at hpred
      obtain ⟨⟨h1, h2⟩, h3⟩ := hpred
      refine ⟨hmem, ?_, ?_, h3⟩
      · have hpos : 0 < (rawChunks p).count t := List.count_pos_iff.mpr hmem
        omega
      · obtain ⟨a, b, rfl⟩ := mem_rawChunks_shape p t hmem
        refine ⟨a, b, rfl, ?_⟩
        intro hab
        subst hab
        simp [firstTwoEq] at h2
    · rintro ⟨hmem, hcount, ⟨a, b, rfl, hab⟩, hrev⟩
      apply List.mem_filter.mpr
      refine ⟨hmem, ?_⟩
      simp only [Bool.and_eq_true, Bool.not_eq_true', decide_eq_false_iff_not]
      refine ⟨⟨by omega, ?_⟩, hrev⟩
      simp [firstTwoEq, hab]
  · intro hlen
    rcases p with _ | ⟨a, _ | ⟨b, r⟩⟩
    · rfl
    · rfl
    · simp at hlen
      omega

/-- Witness for C2: a 1-character password yields no anchors. -/
theorem C2_anchor_extraction_witness : get_password_tokens "a".toList = [] :=
  (C2_anchor_extraction.1 "a".toList).2.2 (by decide)

/-- A token sitting in a list lands in the even-index pick when its index
is even and in the odd-index pick when its index is odd (the link between
`get_direction` and the candidate lists of
`get_random_chunk_for_direction`). -/
theorem mem_pickParity_of_indexOf :
    ∀ (l : List Tok) (m : Tok), m ∈ l →
      (if l.indexOf m % 2 = 0 then m ∈ pickParity true l else m ∈ pickParity false l) := by
  intro l
  induction l with
  | nil => simp
  | cons a rest ih =>
    intro m hm
    by_cases ham : a = m
    · subst ham
      have hself : (a :: rest).indexOf a = 0 := by simp [List.indexOf_cons]
      rw [hself, if_pos (by norm_num : (0 : Nat) % 2 = 0)]
      simp [pickParity]
    · have hm' : m ∈ rest := by
        rcases List.mem_cons.mp hm with h | h
        · exact absurd h.symm ham
        · exact h
      have hne : (a == m) = false := beq_eq_false_iff_ne.mpr ham
      have hidx : (a :: rest).indexOf m = rest.indexOf m + 1 := by
        simp [List.indexOf_cons, hne]
      have ihm := ih m hm'
      rw [hidx]
      by_cases hpar : rest.indexOf m % 2 = 0
      · rw [if_pos hpar] at ihm
        have : ¬ (rest.indexOf m + 1) % 2 = 0 := by omega
        rw [if_neg this]
        simpa [pickParity] using ihm
      · rw [if_neg hpar] at ihm
        have : (rest.indexOf m + 1) % 2 = 0 := by omega
        rw [if_pos this]
        simp [pickParity]
        right
        exact ihm

/-- A valid anchor is a candidate for its own direction. -/
theorem mem_dirCands_self (p : List Char) (m : Tok) (hm : m ∈ get_password_tokens p) :
    m ∈ dirCands p (get_direction p m) := by
  have h := mem_pickParity_of_indexOf (get_password_tokens p) m hm
  by_cases hpar : (get_password_tokens p).indexOf m % 2 = 0
  · rw [if_pos hpar] at h
    simp only [get_direction, dirCands, if_pos hpar]
    exact h
  · rw [if_neg hpar] at h
    simp only [get_direction, dirCands, if_neg hpar]
    exact h

/-- The chunk built for one message token (`encode`, step 3).  The pair
`ch` carries the values drawn by `random.choice`; a draw from an empty
candidate list is the `NoAnchorAvailable` error. -/
def buildChunk (p : List Char) (m : Tok) (ch : Tok × Tok) : Except PyErr (List Tok) :=
  let ptoks := get_password_tokens p
  if m ∈ ptoks then
    match get_direction p m with
    | .before =>
      if dirCands p .before = [] then .error .noAnchor
      else .ok [m.reverse, m, ch.1]
    | .after =>
      if dirCands p .after = [] then .error .noAnchor
      else .ok [ch.1, m, m.reverse]
  else if m.reverse ∈ ptoks then
    if dirCands p .after = [] then .error .noAnchor
    else if ch.1 ≠ m.reverse then .ok [ch.1, m]
    else if dirCands p .before = [] then .error .noAnchor
    else .ok [m, ch.2]
  else
    if ptoks = [] then .error .noAnchor
    else
      match get_direction p ch.1 with
      | .before => .ok [m, ch.1]
      | .after => .ok [ch.1, m]

/-- Chunk building over the whole message token list (`encode`, step 3);
`draws i` is the pair of `random.choice` values for the `i`-th token. -/
def buildChunks (p : List Char) (draws : Nat → Tok × Tok) : List Tok → Nat → Except PyErr (List (List Tok))
  | [], _ => .ok []
  | m :: ms, i =>
    match buildChunk p m (draws i) with
    | .error e => .error e
    | .ok c =>
      match buildChunks p draws ms (i + 1) with
      | .error e => .error e
      | .ok cs => .ok (c :: cs)

/-- What `random.choice` guarantees about the drawn pair for one message
token: each draw that the taken branch uses comes from the candidate list
it is drawn from. -/
def chunkChoiceOk (p : List Char) (m : Tok) (ch : Tok × Tok) : Prop :=
  (m ∈ get_password_tokens p → ch.1 ∈ dirCands p (get_direction p m)) ∧
  (m ∉ get_password_tokens p → m.reverse ∈ get_password_tokens p →
    ch.1 ∈ dirCands p .after ∧ (ch.1 = m.reverse → ch.2 ∈ dirCands p .before)) ∧
  (m ∉ get_password_tokens p → m.reverse ∉ get_password_tokens p →
    ch.1 ∈ get_password_tokens p)

instance (p : List Char) (m : Tok) (ch : Tok × Tok) : Decidable (chunkChoiceOk p m ch) := by
  unfold chunkChoiceOk
  exact @instDecidableAnd _ _ (by infer_instance)
    (@instDecidableAnd _ _ (by infer_instance) (by infer_instance))

/-- C3: for every message token and valid draws, chunk building succeeds
and follows the three-case protocol of `encode` step 3, and every chunk
has exactly 2 or 3 tokens. -/
theorem C3_chunk_protocol :
    ∀ (p : List Char) (m : Tok) (ch : Tok × Tok),
      get_password_tokens p ≠ [] →
      chunkChoiceOk p m ch →
      ∃ chunk, buildChunk p m ch = .ok chunk ∧
        (chunk.length = 2 ∨ chunk.length = 3) ∧
        (m ∈ get_password_tokens p →
          (get_direction p m = .before →
            ∃ a, a ∈ dirCands p .before ∧ chunk = [m.reverse, m, a]) ∧
          (get_direction p m = .after →
            ∃ a, a ∈ dirCands p .after ∧ chunk = [a, m, m.reverse])) ∧
        (m ∉ get_password_tokens p → m.reverse ∈ get_password_tokens p →
          (ch.1 ≠ m.reverse → chunk = [ch.1, m] ∧ ch.1 ∈ dirCands p .after) ∧
          (ch.1 = m.reverse → ∃ b, b ∈ dirCands p .before ∧ chunk = [m, b])) ∧
        (m ∉ get_password_tokens p → m.reverse ∉ get_password_tokens p →
          ∃ a, a ∈ get_password_tokens p ∧
            ((get_direction p a = .before ∧ chunk = [m, a]) ∨
             (get_direction p a = .after ∧ chunk = [a, m]))) := by
  intro p m ch _hne hok
  obtain ⟨hok1, hok2, hok3⟩ := hok
  by_cases h1 : m ∈ get_password_tokens p
  · have hc := hok1 h1
    cases hd : get_direction p m with
    | before =>
      rw [hd] at hc
      have hcne : dirCands p .before ≠ [] := List.ne_nil_of_mem hc
      refine ⟨[m.reverse, m, ch.1], ?_, ?_, ?_, ?_, ?_⟩
      · simp only [buildChunk, if_pos h1, hd, if_neg hcne]
      · right; rfl
      · intro _
        exact ⟨fun _ => ⟨ch.1, hc, rfl⟩, fun hcontra => absurd hcontra (by decide)⟩
      · intro hm'; exact absurd h1 hm'
      · intro hm'; exact absurd h1 hm'
    | after =>
      rw [hd] at hc
      have hcne : dirCands p .after ≠ [] := List.ne_nil_of_mem hc
      refine ⟨[ch.1, m, m.reverse], ?_, ?_, ?_, ?_, ?_⟩
      · simp only [buildChunk, if_pos h1, hd, if_neg hcne]
      · right; rfl
      · intro _
        exact ⟨fun hcontra => absurd hcontra (by decide), fun _ => ⟨ch.1, hc, rfl⟩⟩
      · intro hm'; exact absurd h1 hm'
      · intro hm'; exact absurd h1 hm'
  · by_cases h2 : m.reverse ∈ get_password_tokens p
    · obtain ⟨hafter, hcoll⟩ := hok2 h1 h2
      have hane : dirCands p .after ≠ [] := List.ne_nil_of_mem hafter
      by_cases hch : ch.1 = m.reverse
      · have hb := hcoll hch
        have hbne : dirCands p .before ≠ [] := List.ne_nil_of_mem hb
        refine ⟨[m, ch.2], ?_, ?_, ?_, ?_, ?_⟩
        · simp only [buildChunk, if_neg h1, if_pos h2, if_neg hane]
          rw [if_neg (not_not_intro hch), if_neg hbne]
        · left; rfl
        · intro hcontra; exact absurd hcontra h1
        · intro _ _
          exact ⟨fun hne' => absurd hch hne', fun _ => ⟨ch.2, hb, rfl⟩⟩
        · intro _ hcontra; exact absurd h2 hcontra
      · refine ⟨[ch.1, m], ?_, ?_, ?_, ?_, ?_⟩
        · simp only [buildChunk, if_neg h1, if_pos h2, if_neg hane]
          rw [if_pos hch]
        · left; rfl
        · intro hcontra; exact absurd hcontra h1
        · intro _ _
          exact ⟨fun _ => ⟨rfl, hafter⟩, fun heq => absurd heq hch⟩
        · intro _ hcontra; exact absurd h2 hcontra
    · have hc := hok3 h1 h2
      have hpne : get_password_tokens p ≠ [] := List.ne_nil_of_mem hc
      cases hd : get_direction p ch.1 with
      | before =>
        refine ⟨[m, ch.1], ?_, ?_, ?_, ?_, ?_⟩
        · simp only [buildChunk, if_neg h1, if_neg h2, if_neg hpne, hd]
        · left; rfl
        · intro hcontra; exact absurd hcontra h1
        · intro _ hcontra; exact absurd hcontra h2
        · intro _ _
          exact ⟨ch.1, hc, Or.inl ⟨hd, rfl⟩⟩
      | after =>
        refine ⟨[ch.1, m], ?_, ?_, ?_, ?_, ?_⟩
        · simp only [buildChunk, if_neg h1, if_neg h2, if_neg hpne, hd]
        · left; rfl
        · intro hcontra; exact absurd hcontra h1
        · intro _ hcontra; exact absurd hcontra h2
        · intro _ _
          exact ⟨ch.1, hc, Or.inr ⟨hd, rfl⟩⟩

/-- Witness for C3: the plain token `"hi"` with password `"hello"` and the
draw `"he"` yields a well-formed 2- or 3-token chunk. -/
theorem C3_chunk_protocol_witness :
    ∃ chunk, buildChunk "hello".toList ['h','i'] (['h','e'], ['h','e']) = .ok chunk ∧
      (chunk.length = 2 ∨ chunk.length = 3) := by
  obtain ⟨chunk, hok, hlen, _⟩ :=
    C3_chunk_protocol "hello".toList ['h','i'] (['h','e'], ['h','e']) (by decide) (by decide)
  exact ⟨chunk, hok, hlen⟩

/-- `encode` step 4: the lines buffer.  `n` counts the remaining rows,
`tmax` the remaining token budget (`tmax_toks` in the source); a row gets
`w` slots while more than `w` tokens remain, else `tmax` slots. -/
def buildRows : Nat → Nat → Nat → List (List (Option Tok))
  | 0, _, _ => []
  | n + 1, w, tmax =>
    (if tmax > w then List.replicate w (none : Option Tok) else List.replicate tmax none)
      :: buildRows n w (tmax - w)

/-- `encode` step 4: `max_lines = ⌊c / w⌋ (+ 1 if w ∤ c)` rows. -/
def buildLines (w c : Nat) : List (List (Option Tok)) :=
  buildRows (c / w + if c % w ≠ 0 then 1 else 0) w c

/-- Closed form of the lines buffer when the row count is the exact cover
of the budget: `n - 1` full rows of width `w` and one final row holding
the rest. -/
theorem buildRows_struct : ∀ (n w tmax : Nat), 0 < w → 0 < tmax →
    (n - 1) * w < tmax → tmax ≤ n * w →
    buildRows n w tmax =
      List.replicate (n - 1) (List.replicate w (none : Option Tok)) ++
        [List.replicate (tmax - (n - 1) * w) none] := by
  intro n
  induction n with
  | zero =>
    intro w tmax hw ht h1 h2
    simp at h2
    omega
  | succ k ih =>
    intro w tmax hw ht h1 h2
    rw [Nat.succ_sub_one] at h1 ⊢
    simp only [buildRows]
    by_cases hgt : tmax > w
    · have hk : 0 < k := by
        rcases Nat.eq_zero_or_pos k with hk0 | hk0
        · subst hk0
          simp at h2
          omega
        · exact hk0
      obtain ⟨k', rfl⟩ : ∃ k', k = k' + 1 := ⟨k - 1, by omega⟩
      have e2 : (k' + 1) * w = k' * w + w := by ring
      have e3 : (k' + 1 + 1) * w = k' * w + w + w := by ring
      rw [if_pos hgt,
        ih w (tmax - w) hw (by omega) (by rw [Nat.succ_sub_one]; omega) (by omega),
        Nat.succ_sub_one]
      have e4 : tmax - w - k' * w = tmax - (k' + 1) * w := by omega
      rw [e4, List.replicate_succ]
      simp
    · have hk : k = 0 := by
        rcases Nat.eq_zero_or_pos k with hk0 | hk0
        · exact hk0
        · exfalso
          have : w ≤ k * w := Nat.le_mul_of_pos_left w hk0
          omega
      subst hk
      rw [if_neg hgt]
      simp [buildRows]

/-- `getD` on `k` copies of a row followed by one more row picks the
copied row at every index below `k`. -/
theorem getD_replicate_append {α : Type} :
    ∀ (k : Nat) (x y d : α) (i : Nat), i < k →
      ((List.replicate k x ++ [y]).getD i d) = x := by
  intro k
  induction k with
  | zero => intro x y d i hi; omega
  | succ k ih =>
    intro x y d i hi
    rw [List.replicate_succ]
    cases i with
    | zero => rfl
    | succ j =>
      have := ih x y d j (by omega)
      simpa using this


/-- The row count computed by `encode` step 4 exactly covers the budget:
closed form of the whole lines buffer, with the last row's slot count. -/
theorem buildLines_struct (w c : Nat) (hw : 0 < w) (hc : 0 < c) :
    ∃ n last, 0 < n ∧ last = (if c % w = 0 then w else c % w) ∧
      0 < last ∧ last ≤ w ∧ c = (n - 1) * w + last ∧ n = (c + w - 1) / w ∧
      buildLines w c =
        List.replicate (n - 1) (List.replicate w (none : Option Tok)) ++
          [List.replicate last none] := by
  obtain ⟨q, hq⟩ : ∃ q, c / w = q := ⟨_, rfl⟩
  obtain ⟨r, hr0⟩ : ∃ r, c % w = r := ⟨_, rfl⟩
  have hdm : w * q + r = c := by
    rw [← hq, ← hr0]
    exact Nat.div_add_mod c w
  have hrw : r < w := by
    rw [← hr0]
    exact Nat.mod_lt _ hw
  have hqw : q * w = w * q := Nat.mul_comm q w
  unfold buildLines
  rw [hq, hr0]
  by_cases hrz : r = 0
  · subst hrz
    have hq1 : 1 ≤ q := by
      rcases Nat.eq_zero_or_pos q with h | h
      · subst h
        simp at hdm
        omega
      · exact h
    obtain ⟨q', rfl⟩ : ∃ q', q = q' + 1 := ⟨q - 1, by omega⟩
    have e1 : w * (q' + 1) = w * q' + w := by ring
    have e2 : q' * w = w * q' := Nat.mul_comm q' w
    have e3 : (q' + 1) * w = w * q' + w := by ring
    have e4 : (q' + 1 + 1) * w = w * q' + w + w := by ring
    refine ⟨q' + 1, w, by omega, by simp, hw, le_refl w, ?_, ?_, ?_⟩
    · simp only [Nat.add_sub_cancel]
      omega
    · exact (Nat.div_eq_of_lt_le (by omega) (by omega)).symm
    · have hrows := buildRows_struct (q' + 1) w c hw hc
        (by simp only [Nat.add_sub_cancel]; omega) (by omega)
      simp only [Nat.add_sub_cancel] at hrows ⊢
      have hlast : c - q' * w = w := by omega
      rw [hlast] at hrows
      simpa using hrows
  · have e3 : (q + 1) * w = w * q + w := by ring
    have e4 : (q + 1 + 1) * w = w * q + w + w := by ring
    refine ⟨q + 1, r, by omega, by simp [hrz], by omega, by omega, ?_, ?_, ?_⟩
    · simp only [Nat.add_sub_cancel]
      omega
    · exact (Nat.div_eq_of_lt_le (by omega) (by omega)).symm
    · have hrows := buildRows_struct (q + 1) w c hw hc
        (by simp only [Nat.add_sub_cancel]; omega) (by omega)
      simp only [Nat.add_sub_cancel] at hrows ⊢
      have hlast : c - q * w = r := by omega
      rw [hlast] at hrows
      simpa [hrz] using hrows

/-- C5: for `w ≥ 1`, `c ≥ 1` the grid built by `encode` before placement
has `⌈c/w⌉` rows; every non-last row has `w` slots; the last row has
`c mod w` slots when `w ∤ c` and `w` slots otherwise; the total slot
count is exactly `c`; and every slot starts empty. -/
theorem C5_grid_shape : ∀ w c : Nat, 1 ≤ w → 1 ≤ c →
    (buildLines w c).length = (c + w - 1) / w ∧
    (∀ i, i + 1 < (buildLines w c).length → ((buildLines w c).getD i []).length = w) ∧
    ((buildLines w c).getLast?.getD []).length = (if c % w = 0 then w else c % w) ∧
    ((buildLines w c).map List.length).sum = c ∧
    (∀ row ∈ buildLines w c, ∀ s ∈ row, s = none) := by
  intro w c hw hc
  obtain ⟨n, last, hn, hlast, hl1, hl2, hsum, hceil, hstruct⟩ := buildLines_struct w c hw hc
  have hlen : (buildLines w c).length = n := by
    rw [hstruct]
    simp
    omega
  refine ⟨by rw [hlen, hceil], ?_, ?_, ?_, ?_⟩
  · intro i hi
    rw [hlen] at hi
    rw [hstruct, getD_replicate_append _ _ _ _ _ (by omega), List.length_replicate]
  · rw [hstruct, List.getLast?_concat]
    simp only [Option.getD_some, List.length_replicate]
    exact hlast
  · rw [hstruct]
    simp [List.sum_replicate]
    omega
  · rw [hstruct]
    intro row hrow s hs
    rcases List.mem_append.mp hrow with h | h
    · rw [List.eq_of_mem_replicate h] at hs
      exact List.eq_of_mem_replicate hs
    · rw [List.mem_singleton.mp h] at hs
      exact List.eq_of_mem_replicate hs

/-- Witness for C5: the `w = 4`, `c = 9` grid has `⌈9/4⌉ = 3` rows and 9
slots in total. -/
theorem C5_grid_shape_witness :
    (buildLines 4 9).length = (9 + 4 - 1) / 4 ∧
    ((buildLines 4 9).map List.length).sum = 9 :=
  ⟨(C5_grid_shape 4 9 (by decide) (by decide)).1,
   (C5_grid_shape 4 9 (by decide) (by decide)).2.2.2.1⟩

/-- When the capacity fits in one row or is a multiple of the row width,
every row of the lines buffer has the same length `L` and the grid is a
perfect `n × L` rectangle of `c` empty slots. -/
theorem buildLines_uniform (w c : Nat) (hw : 0 < w) (hc : 0 < c) (hcw : c ≤ w ∨ w ∣ c) :
    ∃ L, 0 < L ∧
      buildLines w c =
        List.replicate ((buildLines w c).length) (List.replicate L (none : Option Tok)) ∧
      (buildLines w c).length * L = c := by
  obtain ⟨n, last, hn, hlast, hl1, hl2, hsum, _hceil, hstruct⟩ := buildLines_struct w c hw hc
  have hlen : (buildLines w c).length = n := by
    rw [hstruct]
    simp
    omega
  rcases hcw with hcle | hdvd
  · -- single row of length c
    have hr : c % w = 0 ∨ c % w = c := by
      rcases Nat.lt_or_ge c w with h | h
      · right
        exact Nat.mod_eq_of_lt h
      · left
        have : c = w := by omega
        subst this
        simp
    have hlw : last = c := by
      rcases hr with h | h
      · rw [hlast, if_pos h]
        have : w ∣ c := Nat.dvd_of_mod_eq_zero h
        have hcw' : w ≤ c := Nat.le_of_dvd hc this
        omega
      · rcases Nat.eq_zero_or_pos (c % w) with h0 | h0
        · rw [hlast, if_pos h0]
          omega
        · rw [hlast, if_neg (by omega)]
          exact h
    have hn1 : n = 1 := by
      rcases Nat.eq_zero_or_pos (n - 1) with h0 | h0
      · omega
      · exfalso
        have : w ≤ (n - 1) * w := Nat.le_mul_of_pos_left w h0
        omega
    refine ⟨c, hc, ?_, ?_⟩
    · rw [hstruct, hn1, hlw]
      simp
    · rw [hlen, hn1]
      omega
  · -- all rows full width w
    have hmod : c % w = 0 := Nat.mod_eq_zero_of_dvd hdvd
    have hlw : last = w := by rw [hlast, if_pos hmod]
    have e : (n - 1) * w + w = n * w := by
      have h : n - 1 + 1 = n := by omega
      calc (n - 1) * w + w = (n - 1 + 1) * w := by ring
        _ = n * w := by rw [h]
    refine ⟨w, hw, ?_, ?_⟩
    · rw [hstruct, hlw]
      have hl : (List.replicate (n - 1) (List.replicate w (none : Option Tok)) ++
          [List.replicate w none]).length = n := by
        simp
        omega
      rw [hl]
      conv_rhs => rw [show n = (n - 1) + 1 from by omega, List.replicate_succ']
    · rw [hlen]
      omega

/-- Write the tokens of one chunk at consecutive flat positions (the
`flat[chosen + k] = chunk[k]` loops of both placers). -/
def writeChunk : List (Option Tok) → Nat → List Tok → List (Option Tok)
  | flat, _, [] => flat
  | flat, pos, t :: ts => writeChunk (flat.set pos (some t)) (pos + 1) ts

/-- Write every chunk at its chosen start position, in order. -/
def placeAt : List (Option Tok) → List (List Tok) → List Nat → List (Option Tok)
  | flat, [], _ => flat
  | flat, _ :: _, [] => flat
  | flat, ch :: cs, p :: ps => placeAt (writeChunk flat p ch) cs ps

/-- The conditions `try_spread` checks before committing a chunk to a
position: at or after the previous chunk's end, inside the slot range,
fitting inside one row (`col_idx + length <= line_len`), and covering
only empty slots of the current buffer; one start per chunk.  Any
successful spread attempt commits exactly such a start list. -/
def spreadStartsOk (lineLen totalSlots : Nat) : List (Option Tok) → List (List Tok) → List Nat → Nat → Bool
  | _, [], [], _ => true
  | _, [], _ :: _, _ => false
  | _, _ :: _, [], _ => false
  | flat, ch :: cs, p :: ps, low =>
    decide (low ≤ p) && decide (p + ch.length ≤ totalSlots) &&
      decide (p % lineLen + ch.length ≤ lineLen) &&
      (List.range ch.length).all (fun k => decide (flat[p + k]? = some none)) &&
      spreadStartsOk lineLen totalSlots (writeChunk flat p ch) cs ps (p + ch.length)

/-- The probe `all(flat[pos + i] is None for i in range(chunk_len))` with
Python semantics: the generator stops at the first occupied slot and an
out-of-range access raises `IndexError`. -/
def probeFree (flat : List (Option Tok)) : Nat → Nat → Except PyErr Bool
  | _, 0 => .ok true
  | pos, k + 1 =>
    match flat[pos]? with
    | none => .error .indexError
    | some (some _) => .ok false
    | some none => probeFree flat (pos + 1) k

/-- The inner `while` loop of `tightly_fit_chunks`: scan for the first
position at or after `pos` where a chunk of length `len` fits inside one
row on empty slots; `none` means the scan ran off the grid.  `fuel`
bounds the loop; callers pass `totalSlots + 2`, which the loop cannot
exhaust because `pos` grows by one per iteration and the loop stops as
soon as `pos + len > totalSlots`. -/
def tightScan (lineLen totalSlots : Nat) (flat : List (Option Tok)) (len : Nat) : Nat → Nat → Except PyErr (Option Nat)
  | 0, _ => .ok none
  | fuel + 1, pos =>
    if pos + len ≤ totalSlots then
      if pos % lineLen + len ≤ lineLen then
        match probeFree flat pos len with
        | .error e => .error e
        | .ok true => .ok (some pos)
        | .ok false => tightScan lineLen totalSlots flat len fuel (pos + 1)
      else tightScan lineLen totalSlots flat len fuel (pos + 1)
    else .ok none

/-- The outer loop of `tightly_fit_chunks`: place each chunk at the first
fitting position at or after the scan cursor, advancing the cursor past
the placed chunk; an exhausted scan is the `RuntimeError`
(`PlacementCapacityExceeded`). -/
def tightLoop (lineLen totalSlots : Nat) : List (Option Tok) → Nat → List (List Tok) → Except PyErr (List (Option Tok))
  | flat, _, [] => .ok flat
  | flat, pos, ch :: cs =>
    match tightScan lineLen totalSlots flat ch.length (totalSlots + 2) pos with
    | .error e => .error e
    | .ok none => .error .placementCapacity
    | .ok (some p) => tightLoop lineLen totalSlots (writeChunk flat p ch) (p + ch.length) cs

/-- The write-back loop shared by both placers: refill each row with
`line_len` tokens of the flat buffer; running out of flat tokens (or a
row shorter than `line_len`) is Python's `IndexError`. -/
def writeBack : List (List (Option Tok)) → Nat → List (Option Tok) → Except PyErr (List (List (Option Tok)))
  | [], _, _ => .ok []
  | row :: rest, lineLen, flat =>
    if lineLen ≤ row.length ∧ lineLen ≤ flat.length then
      match writeBack rest lineLen (flat.drop lineLen) with
      | .ok rs => .ok (flat.take lineLen :: rs)
      | .error e => .error e
    else .error .indexError

theorem writeChunk_length : ∀ (ch : List Tok) (flat : List (Option Tok)) (pos : Nat),
    (writeChunk flat pos ch).length = flat.length := by
  intro ch
  induction ch with
  | nil => intro flat pos; rfl
  | cons t ts ih =>
    intro flat pos
    simp only [writeChunk]
    rw [ih, List.length_set]

theorem writeChunk_getElem?_out : ∀ (ch : List Tok) (flat : List (Option Tok)) (pos q : Nat),
    (q < pos ∨ pos + ch.length ≤ q) → (writeChunk flat pos ch)[q]? = flat[q]? := by
  intro ch
  induction ch with
  | nil => intro flat pos q _; rfl
  | cons t ts ih =>
    intro flat pos q hq
    simp only [writeChunk]
    rw [ih _ _ _ (by simp at hq; omega)]
    exact List.getElem?_set_ne (by simp at hq; omega)

theorem writeChunk_getElem?_in : ∀ (ch : List Tok) (flat : List (Option Tok)) (pos k : Nat),
    k < ch.length → pos + ch.length ≤ flat.length →
    (writeChunk flat pos ch)[pos + k]? = some (some (ch.getD k [])) := by
  intro ch
  induction ch with
  | nil => intro flat pos k hk _; simp at hk
  | cons t ts ih =>
    intro flat pos k hk hlen
    simp only [writeChunk]
    cases k with
    | zero =>
      simp only [Nat.add_zero, List.getD_cons_zero]
      rw [writeChunk_getElem?_out ts _ (pos + 1) pos (by omega)]
      exact List.getElem?_set_eq_of_lt _ (by simp at hlen; omega)
    | succ j =>
      have : pos + (j + 1) = (pos + 1) + j := by omega
      rw [this, ih (flat.set pos (some t)) (pos + 1) j (by simp at hk; omega)
        (by rw [List.length_set]; simp at hlen; omega)]
      simp

theorem probeFree_true : ∀ (len : Nat) (flat : List (Option Tok)) (pos : Nat),
    probeFree flat pos len = .ok true → ∀ k, k < len → flat[pos + k]? = some none := by
  intro len
  induction len with
  | zero => intro flat pos _ k hk; omega
  | succ j ih =>
    intro flat pos hp k hk
    rw [probeFree] at hp
    cases hflat : flat[pos]? with
    | none => rw [hflat] at hp; cases hp
    | some s =>
      cases s with
      | none =>
        rw [hflat] at hp
        cases k with
        | zero => simpa using hflat
        | succ k' =>
          have : pos + (k' + 1) = (pos + 1) + k' := by omega
          rw [this]
          exact ih flat (pos + 1) hp k' (by omega)
      | some t => rw [hflat] at hp; cases hp

theorem tightScan_found : ∀ (fuel lineLen totalSlots : Nat) (flat : List (Option Tok))
    (len pos p : Nat),
    tightScan lineLen totalSlots flat len fuel pos = .ok (some p) →
    pos ≤ p ∧ p + len ≤ totalSlots ∧ p % lineLen + len ≤ lineLen ∧
    (∀ k, k < len → flat[p + k]? = some none) := by
  intro fuel
  induction fuel with
  | zero => intro lineLen totalSlots flat len pos p h; cases h
  | succ f ih =>
    intro lineLen totalSlots flat len pos p h
    rw [tightScan] at h
    by_cases h1 : pos + len ≤ totalSlots
    · rw [if_pos h1] at h
      by_cases h2 : pos % lineLen + len ≤ lineLen
      · rw [if_pos h2] at h
        cases hp : probeFree flat pos len with
        | error e => rw [hp] at h; cases h
        | ok b =>
          cases b with
          | true =>
            rw [hp] at h
            have hpp : pos = p := by
              cases h
              rfl
            subst hpp
            exact ⟨le_refl _, h1, h2, probeFree_true _ _ _ hp⟩
          | false =>
            rw [hp] at h
            have := ih lineLen totalSlots flat len (pos + 1) p h
            exact ⟨by omega, this.2⟩
      · rw [if_neg h2] at h
        have := ih lineLen totalSlots flat len (pos + 1) p h
        exact ⟨by omega, this.2⟩
    · rw [if_neg h1] at h
      cases h

/-- Both placers' actual commits satisfy the spread legality conditions:
any successful run of the tight-fit loop equals placing the chunks along
some start list accepted by `spreadStartsOk`. -/
theorem tightLoop_refine : ∀ (cs : List (List Tok)) (lineLen totalSlots : Nat)
    (flat flat2 : List (Option Tok)) (pos : Nat),
    tightLoop lineLen totalSlots flat pos cs = .ok flat2 →
    ∃ ps, spreadStartsOk lineLen totalSlots flat cs ps pos = true ∧
      flat2 = placeAt flat cs ps := by
  intro cs
  induction cs with
  | nil =>
    intro lineLen totalSlots flat flat2 pos h
    rw [tightLoop] at h
    cases h
    exact ⟨[], rfl, rfl⟩
  | cons ch cs ih =>
    intro lineLen totalSlots flat flat2 pos h
    rw [tightLoop] at h
    cases hscan : tightScan lineLen totalSlots flat ch.length (totalSlots + 2) pos with
    | error e => rw [hscan] at h; cases h
    | ok o =>
      cases o with
      | none => rw [hscan] at h; cases h
      | some p =>
        rw [hscan] at h
        obtain ⟨hle, hts, hcol, hfree⟩ :=
          tightScan_found (totalSlots + 2) lineLen totalSlots flat ch.length pos p hscan
        obtain ⟨ps, hok, heq⟩ := ih lineLen totalSlots (writeChunk flat p ch) flat2 (p + ch.length) h
        refine ⟨p :: ps, ?_, heq⟩
        rw [spreadStartsOk]
        simp only [Bool.and_eq_true, decide_eq_true_eq, List.all_eq_true, List.mem_range]
        exact ⟨⟨⟨⟨hle, hts⟩, hcol⟩, fun k hk => by simpa using hfree k hk⟩, hok⟩

/-- A position whose column fits the chunk inside a row keeps all covered
slots in the same row (same flat-index row number). -/
theorem div_stable_of_colfit (L p k len : Nat) (hL : 0 < L)
    (hcol : p % L + len ≤ L) (hk : k < len) : (p + k) / L = p / L := by
  obtain ⟨qd, hqd⟩ : ∃ t, p / L = t := ⟨_, rfl⟩
  obtain ⟨rd, hrd⟩ : ∃ t, p % L = t := ⟨_, rfl⟩
  have hdm : L * qd + rd = p := by
    rw [← hqd, ← hrd]
    exact Nat.div_add_mod p L
  rw [hrd] at hcol
  have e : p + k = L * qd + (rd + k) := by omega
  rw [e, Nat.mul_add_div hL, Nat.div_eq_of_lt (show rd + k < L by omega), Nat.add_zero]
  exact hqd.symm

/-- Everything `spreadStartsOk` certifies about a committed placement:
matching lengths, in-order non-overlapping starts, each chunk confined to
one row, untouched occupied slots, and the chunk contents in place. -/
theorem spreadStartsOk_spec : ∀ (cs : List (List Tok)) (ps : List Nat)
    (lineLen totalSlots : Nat) (flat : List (Option Tok)) (low : Nat),
    spreadStartsOk lineLen totalSlots flat cs ps low = true →
    ps.length = cs.length ∧
    (∀ i, i < cs.length → low ≤ ps.getD i 0) ∧
    (∀ i, i + 1 < cs.length → ps.getD i 0 + (cs.getD i []).length ≤ ps.getD (i + 1) 0) ∧
    (∀ i, i < cs.length → ps.getD i 0 + (cs.getD i []).length ≤ totalSlots ∧
      ps.getD i 0 % lineLen + (cs.getD i []).length ≤ lineLen) ∧
    (∀ (q : Nat) (t : Tok), flat[q]? = some (some t) →
      (placeAt flat cs ps)[q]? = some (some t)) ∧
    (∀ i k, i < cs.length → k < (cs.getD i []).length →
      (placeAt flat cs ps)[ps.getD i 0 + k]? = some (some ((cs.getD i []).getD k []))) := by
  intro cs
  induction cs with
  | nil =>
    intro ps lineLen totalSlots flat low h
    cases ps with
    | nil =>
      refine ⟨rfl, ?_, ?_, ?_, ?_, ?_⟩
      · intro i hi
        simp at hi
      · intro i hi
        simp at hi
      · intro i hi
        simp at hi
      · intro q t hq
        simpa [placeAt] using hq
      · intro i k hi hk
        simp at hi
    | cons p ps' => rw [spreadStartsOk] at h; cases h
  | cons ch cs ih =>
    intro ps lineLen totalSlots flat low h
    cases ps with
    | nil => rw [spreadStartsOk] at h; cases h
    | cons p ps' =>
      rw [spreadStartsOk] at h
      simp only [Bool.and_eq_true, decide_eq_true_eq, List.all_eq_true, List.mem_range] at h
      obtain ⟨⟨⟨⟨hlow, hts⟩, hcol⟩, hfree⟩, hrest⟩ := h
      have hfree' : ∀ k, k < ch.length → flat[p + k]? = some none := by
        intro k hk
        have := hfree k hk
        simpa using this
      have hinb : 0 < ch.length → p + ch.length ≤ flat.length := by
        intro hpos
        have hlast := hfree' (ch.length - 1) (by omega)
        by_contra hout
        have : flat[p + (ch.length - 1)]? = none :=
          List.getElem?_eq_none (by omega)
        rw [this] at hlast
        cases hlast
      obtain ⟨ihlen, ihlow, ihord, ihbounds, ihpres, ihcontent⟩ :=
        ih ps' lineLen totalSlots (writeChunk flat p ch) (p + ch.length) hrest
      have hwlen : (writeChunk flat p ch).length = flat.length := writeChunk_length ch flat p
      refine ⟨by simpa using ihlen, ?_, ?_, ?_, ?_, ?_⟩
      · intro i hi
        cases i with
        | zero => simpa using hlow
        | succ j =>
          have hj : j < cs.length := by simpa using hi
          have := ihlow j hj
          simp only [List.getD_cons_succ]
          omega
      · intro i hi
        cases i with
        | zero =>
          have h0 : 0 < cs.length := by simpa using hi
          have := ihlow 0 h0
          simpa using this
        | succ j =>
          have hj : j + 1 < cs.length := by simpa using hi
          have := ihord j hj
          simpa using this
      · intro i hi
        cases i with
        | zero => exact ⟨by simpa using hts, by simpa using hcol⟩
        | succ j =>
          have hj : j < cs.length := by simpa using hi
          have := ihbounds j hj
          simpa using this
      · intro q t hq
        simp only [placeAt]
        apply ihpres
        rw [writeChunk_getElem?_out ch flat p q]
        · exact hq
        · by_contra hin
          push_neg at hin
          have hfq := hfree' (q - p) (by omega)
          have : p + (q - p) = q := by omega
          rw [this] at hfq
          rw [hq] at hfq
          cases hfq
      · intro i k hi hk
        cases i with
        | zero =>
          simp only [List.getD_cons_zero] at hk ⊢
          simp only [placeAt]
          apply ihpres
          exact writeChunk_getElem?_in ch flat p k hk (hinb (by omega))
        | succ j =>
          have hj : j < cs.length := by simpa using hi
          simp only [List.getD_cons_succ] at hk ⊢
          simp only [placeAt]
          exact ihcontent j k hj hk

/-- C4: whenever placement completes — a successful spread attempt
(characterised by `spreadStartsOk`, the exact conditions `try_spread`
checks before committing) or the tight-fit fallback — the start lists
match the chunk list, chunks sit in order without overlap (each start is
past the previous chunk's end), every chunk stays inside a single row,
every slot occupied before placement keeps its token, and each chunk's
tokens appear contiguously at its start; and every successful tight-fit
run is such a placement. -/
theorem C4_placement_legality :
    (∀ (lineLen totalSlots : Nat) (flat : List (Option Tok))
      (cs : List (List Tok)) (ps : List Nat),
      spreadStartsOk lineLen totalSlots flat cs ps 0 = true →
      ps.length = cs.length ∧
      (∀ i, i + 1 < cs.length →
        ps.getD i 0 + (cs.getD i []).length ≤ ps.getD (i + 1) 0) ∧
      (∀ i k, 0 < lineLen → i < cs.length → k < (cs.getD i []).length →
        (ps.getD i 0 + k) / lineLen = ps.getD i 0 / lineLen) ∧
      (∀ (q : Nat) (t : Tok), flat[q]? = some (some t) →
        (placeAt flat cs ps)[q]? = some (some t)) ∧
      (∀ i k, i < cs.length → k < (cs.getD i []).length →
        (placeAt flat cs ps)[ps.getD i 0 + k]? =
          some (some ((cs.getD i []).getD k [])))) ∧
    (∀ (lineLen totalSlots : Nat) (flat flat2 : List (Option Tok))
      (cs : List (List Tok)),
      tightLoop lineLen totalSlots flat 0 cs = .ok flat2 →
      ∃ ps, spreadStartsOk lineLen totalSlots flat cs ps 0 = true ∧
        flat2 = placeAt flat cs ps) := by
  constructor
  · intro lineLen totalSlots flat cs ps hok
    obtain ⟨hlen, _hlow, hord, hbounds, hpres, hcontent⟩ :=
      spreadStartsOk_spec cs ps lineLen totalSlots flat 0 hok
    refine ⟨hlen, hord, ?_, hpres, hcontent⟩
    intro i k hL hi hk
    exact div_stable_of_colfit lineLen (ps.getD i 0) k (cs.getD i []).length hL
      (hbounds i hi).2 hk
  · intro lineLen totalSlots flat flat2 cs h
    exact tightLoop_refine cs lineLen totalSlots flat flat2 0 h

/-- Witness for C4: one 1-token chunk placed at start 1 of a 2-wide,
4-slot empty grid is a legal placement that puts the token at slot 1. -/
theorem C4_placement_legality_witness :
    spreadStartsOk 2 4 [none, none, none, none] [[['a','b']]] [1] 0 = true ∧
    (placeAt [none, none, none, none] [[['a','b']]] [1])[1]? = some (some ['a','b']) := by
  refine ⟨by decide, ?_⟩
  have h := (C4_placement_legality.1 2 4 [none, none, none, none]
    [[['a','b']]] [1] (by decide)).2.2.2.2 0 0 (by decide) (by decide)
  simpa using h

/-- What the rejection loop of `generate_noise_token` guarantees about an
accepted noise token: two characters drawn from ASCII letters and digits,
not equal to any token of the exclude set (the anchors), reverse not in
the exclude set, and not equal to any message token. -/
def noiseTokenOk (excl msgToks : List Tok) (t : Tok) : Prop :=
  t.length = 2 ∧ t.all Char.isAlphanum = true ∧
  t ∉ excl ∧ t.reverse ∉ excl ∧ t ∉ msgToks

instance (excl msgToks : List Tok) (t : Tok) : Decidable (noiseTokenOk excl msgToks t) :=
  decidable_of_iff (t.length = 2 ∧ t.all Char.isAlphanum = true ∧
    t ∉ excl ∧ t.reverse ∉ excl ∧ t ∉ msgToks) Iff.rfl

/-- All values drawn from the process-wide random source during one
`encode` call: the padding character, the per-message-token anchor draws,
the padding-marker anchor and row, the accepted placement attempt
(`none` when every spread attempt failed and the fallback ran), and the
accepted noise token per flat slot index. -/
structure EncodeChoices where
  padChar : Char
  draws : Nat → Tok × Tok
  padAnchor : Tok
  padLine : Nat
  placement : Option (List Nat)
  noise : Nat → Tok

/-- `encode` step 1: append the drawn pad character on odd length. -/
def paddedText (text : List Char) (cs : EncodeChoices) : List Char :=
  if needsPadding text then text ++ [cs.padChar] else text

/-- `encode` step 2: the message tokens of the padded text. -/
def msgTokensOf (text : List Char) (cs : EncodeChoices) : List Tok :=
  get_text_tokens (paddedText text cs)

/-- `encode` step 5: on padding, put the drawn anchor alone into the
first slot (direction `before`) or last slot (direction `after`) of the
drawn row; drawing from an empty anchor list is the `NoAnchorAvailable`
error, and `randint` on an empty lines list is an index error. -/
def padStep (pw : List Char) (needs : Bool) (anchor : Tok) (li : Nat)
    (lines : List (List (Option Tok))) : Except PyErr (List (List (Option Tok))) :=
  if needs then
    if get_password_tokens pw = [] then .error .noAnchor
    else if lines = [] then .error .indexError
    else
      match get_direction pw anchor with
      | .before => .ok (lines.set li ((lines.getD li []).set 0 (some anchor)))
      | .after =>
        .ok (lines.set li
          ((lines.getD li []).set ((lines.getD li []).length - 1) (some anchor)))
  else .ok lines

/-- The tight-fit fallback on the full lines buffer
(`tightly_fit_chunks`): place into the flat buffer, then write back. -/
def runTightPath (lines : List (List (Option Tok))) (lineLen totalSlots : Nat)
    (flat : List (Option Tok)) (chunks : List (List Tok)) :
    Except PyErr (List (List (Option Tok))) :=
  match tightLoop lineLen totalSlots flat 0 chunks with
  | .error e => .error e
  | .ok flat2 => writeBack lines lineLen flat2

/-- `spread_chunks_with_fallback` as a relation on outcomes: empty lines
crash on `lines[0]`; `some starts` is a successful spread attempt, which
commits exactly a start list accepted by `spreadStartsOk` and then writes
the flat buffer back to the rows; `none` — or a start list the commit
checks refuse — means every attempt failed and the fallback runs. -/
def placementStage (lines : List (List (Option Tok))) (chunks : List (List Tok))
    (pc : Option (List Nat)) : Except PyErr (List (List (Option Tok))) :=
  match lines with
  | [] => .error .indexError
  | l0 :: _ =>
    let lineLen := l0.length
    let totalSlots := lines.length * lineLen
    let flat := lines.flatten
    match pc with
    | some starts =>
      if spreadStartsOk lineLen totalSlots flat chunks starts 0 then
        writeBack lines lineLen (placeAt flat chunks starts)
      else runTightPath lines lineLen totalSlots flat chunks
    | none => runTightPath lines lineLen totalSlots flat chunks

/-- `encode` steps 1–6: everything before noise filling. -/
def placedGrid (text pw : List Char) (w c : Nat) (cs : EncodeChoices) :
    Except PyErr (List (List (Option Tok))) :=
  match buildChunks pw cs.draws (msgTokensOf text cs) 0 with
  | .error e => .error e
  | .ok chunks =>
    match padStep pw (needsPadding text) cs.padAnchor cs.padLine (buildLines w c) with
    | .error e => .error e
    | .ok lines2 => placementStage lines2 chunks cs.placement

/-- `encode` step 7 on one row: keep placed tokens, fill empty slots with
the drawn noise token of their flat index. -/
def fillRow (noise : Nat → Tok) : Nat → List (Option Tok) → List Tok
  | _, [] => []
  | base, some t :: rest => t :: fillRow noise (base + 1) rest
  | base, none :: rest => noise base :: fillRow noise (base + 1) rest

/-- `encode` step 7 on the whole grid. -/
def fillNoise (noise : Nat → Tok) : Nat → List (List (Option Tok)) → List (List Tok)
  | _, [] => []
  | base, row :: rest => fillRow noise base row :: fillNoise noise (base + row.length) rest

/-- The whole of `encode`. -/
def encodeModel (text pw : List Char) (w c : Nat) (cs : EncodeChoices) :
    Except PyErr (List (List Tok)) :=
  match placedGrid text pw w c cs with
  | .error e => .error e
  | .ok placed => .ok (fillNoise cs.noise 0 placed)

/-- Write-back fails with an index error whenever some row is shorter
than the nominal row width — exactly the short last row the allocator
builds when the width does not divide the capacity. -/
theorem writeBack_short_row : ∀ (rows : List (List (Option Tok))) (L : Nat)
    (f : List (Option Tok)), (∃ row ∈ rows, row.length < L) →
    writeBack rows L f = .error .indexError := by
  intro rows
  induction rows with
  | nil =>
    intro L f h
    obtain ⟨row, hmem, _⟩ := h
    simp at hmem
  | cons r rest ih =>
    intro L f h
    rw [writeBack]
    by_cases hcond : L ≤ r.length ∧ L ≤ f.length
    · rw [if_pos hcond]
      obtain ⟨row, hmem, hlen⟩ := h
      rcases List.mem_cons.mp hmem with heq | hmem'
      · subst heq
        omega
      · rw [ih L (f.drop L) ⟨row, hmem', hlen⟩]
    · rw [if_neg hcond]

/-- Unfolding `placedGrid` when chunk building and the padding marker
succeed. -/
theorem placedGrid_eq_placement {text pw : List Char} {w c : Nat} {cs : EncodeChoices}
    {chunks : List (List Tok)}
    (h1 : buildChunks pw cs.draws (msgTokensOf text cs) 0 = .ok chunks)
    {lines2 : List (List (Option Tok))}
    (h2 : padStep pw (needsPadding text) cs.padAnchor cs.padLine (buildLines w c) =
      .ok lines2) :
    placedGrid text pw w c cs = placementStage lines2 chunks cs.placement := by
  unfold placedGrid
  rw [h1, h2]

/-- `encodeModel` propagates a failing placement pipeline. -/
theorem encodeModel_error {text pw : List Char} {w c : Nat} {cs : EncodeChoices}
    {e : PyErr} (h : placedGrid text pw w c cs = .error e) :
    encodeModel text pw w c cs = .error e := by
  unfold encodeModel
  rw [h]

/-- `encodeModel` fills the placed grid with the drawn noise tokens. -/
theorem encodeModel_ok {text pw : List Char} {w c : Nat} {cs : EncodeChoices}
    {g : List (List (Option Tok))} (h : placedGrid text pw w c cs = .ok g) :
    encodeModel text pw w c cs = .ok (fillNoise cs.noise 0 g) := by
  unfold encodeModel
  rw [h]

/-- C1 (code bug): at text `"hi"`, password `"hello"`, `line_max = 4`,
`total_max = 9` — parameters the round-trip claim quantifies over —
`encode` fails with an index error for every possible draw of the random
values: both placers and the shared write-back loop index the flattened
buffer by `rows × nominal width` (`len(lines) * len(lines[0])`) while the
allocator built a short last row, so no grid is returned and
`decode(encode(t, p, w, c), p) = t` cannot hold. -/
theorem C1_roundtrip_code_bug : ∀ cs : EncodeChoices,
    encodeModel "hi".toList "hello".toList 4 9 cs = .error .indexError := by
  intro cs
  have hshort : ∃ row ∈ ([[none, none, none, none], [none, none, none, none],
      [none]] : List (List (Option Tok))), row.length < 4 :=
    ⟨[none], by decide, by decide⟩
  have hbc : buildChunk "hello".toList ['h','i'] (cs.draws 0) =
      (match get_direction "hello".toList (cs.draws 0).1 with
       | .before => .ok [['h','i'], (cs.draws 0).1]
       | .after => .ok [(cs.draws 0).1, ['h','i']]) := by
    simp only [buildChunk]
    rw [if_neg (by decide), if_neg (by decide), if_neg (by decide)]
  have hchunk : ∃ t1 t2, buildChunks "hello".toList cs.draws
      (msgTokensOf "hi".toList cs) 0 = .ok [[t1, t2]] := by
    have hmsg : msgTokensOf "hi".toList cs = [['h','i']] := rfl
    rw [hmsg]
    cases hd : get_direction "hello".toList (cs.draws 0).1 with
    | before =>
      refine ⟨['h','i'], (cs.draws 0).1, ?_⟩
      simp only [buildChunks, hbc, hd]
    | after =>
      refine ⟨(cs.draws 0).1, ['h','i'], ?_⟩
      simp only [buildChunks, hbc, hd]
  obtain ⟨t1, t2, hchunks⟩ := hchunk
  have hpad : padStep "hello".toList (needsPadding "hi".toList) cs.padAnchor
      cs.padLine (buildLines 4 9) = .ok (buildLines 4 9) := rfl
  have hlines : buildLines 4 9 =
      [[none, none, none, none], [none, none, none, none], [none]] := by decide
  have htight : runTightPath
      [[none, none, none, none], [none, none, none, none], [none]] 4 12
      [none, none, none, none, none, none, none, none, none] [[t1, t2]] =
      .error .indexError := by
    have hscan : tightScan 4 12
        [none, none, none, none, none, none, none, none, none] 2 (12 + 2) 0 =
        .ok (some 0) := rfl
    simp only [runTightPath, tightLoop]
    rw [show ([t1, t2] : List Tok).length = 2 from rfl, hscan]
    simp only [tightLoop]
    exact writeBack_short_row _ 4 _ hshort
  have hps : ∀ pc, placementStage
      [[none, none, none, none], [none, none, none, none], [none]]
      [[t1, t2]] pc = .error .indexError := by
    intro pc
    cases pc with
    | none => exact htight
    | some starts =>
      show (if spreadStartsOk 4 12
          [none, none, none, none, none, none, none, none, none]
          [[t1, t2]] starts 0 then
        writeBack [[none, none, none, none], [none, none, none, none], [none]] 4
          (placeAt [none, none, none, none, none, none, none, none, none]
            [[t1, t2]] starts)
        else runTightPath
          [[none, none, none, none], [none, none, none, none], [none]] 4 12
          [none, none, none, none, none, none, none, none, none] [[t1, t2]]) =
        .error .indexError
      by_cases hok : spreadStartsOk 4 12
          [none, none, none, none, none, none, none, none, none]
          [[t1, t2]] starts 0 = true
      · rw [if_pos hok]
        exact writeBack_short_row _ 4 _ hshort
      · rw [if_neg hok]
        exact htight
  have hpg : placedGrid "hi".toList "hello".toList 4 9 cs = .error .indexError := by
    rw [placedGrid_eq_placement hchunks hpad, hlines, hps cs.placement]
  exact encodeModel_error hpg

/-- One slot of `decode`'s scan: if the token is a valid anchor, look at
the neighbour on the side its direction dictates (within the row); a
missing or empty neighbour sets the trim flag, a neighbour whose reverse
equals the anchor is the disambiguation sentinel and is skipped, any
other neighbour is emitted. -/
def decodeLineStep (valid : List Tok) (line : List Tok) (acc : List Tok × Bool) (i : Nat) :
    List Tok × Bool :=
  let token := line.getD i []
  if token ∈ valid then
    let direction : Direction := if valid.indexOf token % 2 = 0 then .before else .after
    match direction with
    | .before =>
      let prev := if 0 < i then line.getD (i - 1) [] else []
      if prev = [] then (acc.1, true)
      else if prev.reverse ≠ token then (acc.1 ++ [prev], acc.2)
      else acc
    | .after =>
      let next := if i + 1 < line.length then line.getD (i + 1) [] else []
      if next = [] then (acc.1, true)
      else if next.reverse ≠ token then (acc.1 ++ [next], acc.2)
      else acc
  else acc

/-- `decode`: scan rows top-to-bottom, slots left-to-right, concatenate
the emitted neighbour tokens, and drop the final character when the trim
flag was ever set. -/
def decode (lines : List (List Tok)) (password : List Char) : List Char :=
  let valid := get_password_tokens password
  let acc := lines.foldl
    (fun acc line => (List.range line.length).foldl (decodeLineStep valid line) acc)
    ([], false)
  let res := acc.1.flatten
  if acc.2 then res.dropLast else res

theorem getD_mem_of_lt {α : Type} :
    ∀ (l : List α) (i : Nat) (d : α), i < l.length → l.getD i d ∈ l := by
  intro l
  induction l with
  | nil => intro i d h; simp at h
  | cons a rest ih =>
    intro i d h
    cases i with
    | zero => simp
    | succ j =>
      rw [List.getD_cons_succ]
      exact List.mem_cons_of_mem a (ih j d (by simpa using h))

theorem foldl_fixed {α β : Type} (f : β → α → β) :
    ∀ (l : List α) (b : β), (∀ x ∈ l, ∀ acc, f acc x = acc) → l.foldl f b = b := by
  intro l
  induction l with
  | nil => intro b _; rfl
  | cons a rest ih =>
    intro b h
    rw [List.foldl_cons, h a (List.mem_cons_self a rest) b]
    exact ih b fun x hx acc => h x (List.mem_cons_of_mem a hx) acc

/-- C8: decoding is a total function of the grid and password (the model
function is total by construction), and a grid none of whose tokens is a
valid anchor of the password decodes to the empty string. -/
theorem C8_decode_total_empty :
    ∀ (lines : List (List Tok)) (password : List Char),
      (∀ row ∈ lines, ∀ t ∈ row, t ∉ get_password_tokens password) →
      decode lines password = [] := by
  intro lines password h
  simp only [decode]
  have hfold : lines.foldl
      (fun acc line => (List.range line.length).foldl
        (decodeLineStep (get_password_tokens password) line) acc)
      ([], false) = ([], false) := by
    apply foldl_fixed
    intro line hline acc
    apply foldl_fixed
    intro i hi acc'
    have hi' : i < line.length := List.mem_range.mp hi
    have htok : line.getD i [] ∉ get_password_tokens password :=
      h line hline _ (getD_mem_of_lt line i [] hi')
    unfold decodeLineStep
    rw [if_neg htok]
  rw [hfold]
  simp

/-- Witness for C8: a 2-row grid holding no anchor of `"hello"` decodes
to the empty string. -/
theorem C8_decode_total_empty_witness :
    decode [[['x','x'], ['y','y']], [['z','z']]] "hello".toList = [] :=
  C8_decode_total_empty [[['x','x'], ['y','y']], [['z','z']]] "hello".toList (by decide)

/-- Chunk building can only fail by needing an anchor that no candidate
list provides. -/
theorem buildChunk_error_eq : ∀ (p : List Char) (m : Tok) (ch : Tok × Tok) (e : PyErr),
    buildChunk p m ch = .error e → e = .noAnchor := by
  intro p m ch e h
  simp only [buildChunk] at h
  split at h
  · split at h
    · split at h
      · injection h with h2
        exact h2.symm
      · cases h
    · split at h
      · injection h with h2
        exact h2.symm
      · cases h
  · split at h
    · split at h
      · injection h with h2
        exact h2.symm
      · split at h
        · cases h
        · split at h
          · injection h with h2
            exact h2.symm
          · cases h
    · split at h
      · injection h with h2
        exact h2.symm
      · split at h
        · cases h
        · cases h

/-- The spec's `NoAnchorAvailable` situations for one message token: the
branch taken demands a direction whose candidate list is empty, or the
password has no valid anchors at all and a plain token must be paired. -/
def requiredDirEmpty (p : List Char) (m : Tok) (ch : Tok × Tok) : Prop :=
  (m ∈ get_password_tokens p ∧ dirCands p (get_direction p m) = []) ∨
  (m ∉ get_password_tokens p ∧ m.reverse ∈ get_password_tokens p ∧
    (dirCands p .after = [] ∨ (ch.1 = m.reverse ∧ dirCands p .before = []))) ∨
  (m ∉ get_password_tokens p ∧ m.reverse ∉ get_password_tokens p ∧
    get_password_tokens p = [])

instance (p : List Char) (m : Tok) (ch : Tok × Tok) : Decidable (requiredDirEmpty p m ch) :=
  decidable_of_iff ((m ∈ get_password_tokens p ∧ dirCands p (get_direction p m) = []) ∨
    (m ∉ get_password_tokens p ∧ m.reverse ∈ get_password_tokens p ∧
      (dirCands p .after = [] ∨ (ch.1 = m.reverse ∧ dirCands p .before = []))) ∨
    (m ∉ get_password_tokens p ∧ m.reverse ∉ get_password_tokens p ∧
      get_password_tokens p = [])) Iff.rfl

theorem buildChunk_error_of_requiredDirEmpty :
    ∀ (p : List Char) (m : Tok) (ch : Tok × Tok),
    requiredDirEmpty p m ch → buildChunk p m ch = .error .noAnchor := by
  intro p m ch h
  rcases h with ⟨h1, h2⟩ | ⟨h1, h2, h3⟩ | ⟨h1, h2, h3⟩
  · simp only [buildChunk]
    rw [if_pos h1]
    cases hd : get_direction p m with
    | before =>
      rw [hd] at h2
      rw [if_pos h2]
    | after =>
      rw [hd] at h2
      rw [if_pos h2]
  · simp only [buildChunk]
    rw [if_neg h1, if_pos h2]
    by_cases haft : dirCands p .after = []
    · rw [if_pos haft]
    · rcases h3 with h3 | ⟨hch, hbe⟩
      · exact absurd h3 haft
      · rw [if_neg haft, if_neg (not_not_intro hch), if_pos hbe]
  · simp only [buildChunk]
    rw [if_neg h1, if_neg h2, if_pos h3]

/-- If any message token's branch lacks its needed anchors, the chunk
building pass aborts with the no-anchor error. -/
theorem buildChunks_error_noAnchor : ∀ (toks : List Tok) (p : List Char)
    (draws : Nat → Tok × Tok) (start : Nat),
    (∃ i, i < toks.length ∧
      buildChunk p (toks.getD i []) (draws (start + i)) = .error .noAnchor) →
    buildChunks p draws toks start = .error .noAnchor := by
  intro toks
  induction toks with
  | nil =>
    intro p draws start h
    obtain ⟨i, hi, _⟩ := h
    simp at hi
  | cons m ms ih =>
    intro p draws start h
    obtain ⟨i, hi, herr⟩ := h
    rw [buildChunks]
    cases hbc : buildChunk p m (draws start) with
    | error e =>
      have he := buildChunk_error_eq p m (draws start) e hbc
      subst he
      rfl
    | ok ch =>
      cases i with
      | zero =>
        rw [List.getD_cons_zero, Nat.add_zero, hbc] at herr
        cases herr
      | succ j =>
        have herr' : buildChunk p (ms.getD j []) (draws ((start + 1) + j)) =
            .error .noAnchor := by
          rw [List.getD_cons_succ] at herr
          have : start + (j + 1) = (start + 1) + j := by omega
          rw [this] at herr
          exact herr
        rw [ih p draws (start + 1) ⟨j, by simpa using hi, herr'⟩]

/-- C7: for any text with at least one message token, if the password
yields no valid anchors at all, or some token's branch demands a
direction with no candidates, `encode` aborts with the no-anchor error
before any grid is produced. -/
theorem C7_no_anchor_error :
    ∀ (text pw : List Char) (w c : Nat) (cs : EncodeChoices),
      msgTokensOf text cs ≠ [] →
      (get_password_tokens pw = [] ∨
        ∃ i, i < (msgTokensOf text cs).length ∧
          requiredDirEmpty pw ((msgTokensOf text cs).getD i []) (cs.draws i)) →
      encodeModel text pw w c cs = .error .noAnchor := by
  intro text pw w c cs hne hcond
  have herr : buildChunks pw cs.draws (msgTokensOf text cs) 0 = .error .noAnchor := by
    apply buildChunks_error_noAnchor
    rcases hcond with hempty | ⟨i, hi, hreq⟩
    · refine ⟨0, List.length_pos.mpr hne, ?_⟩
      apply buildChunk_error_of_requiredDirEmpty
      right
      right
      exact ⟨by simp [hempty], by simp [hempty], hempty⟩
    · refine ⟨i, hi, ?_⟩
      rw [Nat.zero_add]
      exact buildChunk_error_of_requiredDirEmpty _ _ _ hreq
  unfold encodeModel placedGrid
  rw [herr]

/-- Witness for C7: password `"aa"` has no valid anchors, so encoding
`"hi"` fails with the no-anchor error. -/
theorem C7_no_anchor_error_witness :
    encodeModel "hi".toList "aa".toList 3 4
      ⟨'x', fun _ => (['a','a'], ['a','a']), ['a','a'], 0, none, fun _ => ['q','w']⟩ =
      .error .noAnchor :=
  C7_no_anchor_error "hi".toList "aa".toList 3 4 _ (by decide) (Or.inl (by decide))

theorem fillRow_length : ∀ (row : List (Option Tok)) (noise : Nat → Tok) (base : Nat),
    (fillRow noise base row).length = row.length := by
  intro row
  induction row with
  | nil => intro noise base; rfl
  | cons s rest ih =>
    intro noise base
    cases s with
    | none => simp [fillRow, ih]
    | some t => simp [fillRow, ih]

theorem fillRow_getElem? : ∀ (row : List (Option Tok)) (noise : Nat → Tok) (base j : Nat),
    (∀ t : Tok, row[j]? = some (some t) → (fillRow noise base row)[j]? = some t) ∧
    (row[j]? = some none → ∃ i, (fillRow noise base row)[j]? = some (noise i)) := by
  intro row
  induction row with
  | nil =>
    intro noise base j
    constructor
    · intro t h
      simp at h
    · intro h
      simp at h
  | cons s rest ih =>
    intro noise base j
    cases s with
    | none =>
      cases j with
      | zero =>
        refine ⟨?_, ?_⟩
        · intro t h
          simp at h
        · intro _
          exact ⟨base, by simp [fillRow]⟩
      | succ k =>
        refine ⟨?_, ?_⟩
        · intro t h
          simp only [fillRow, List.getElem?_cons_succ] at h ⊢
          exact (ih noise (base + 1) k).1 t h
        · intro h
          simp only [fillRow, List.getElem?_cons_succ] at h ⊢
          exact (ih noise (base + 1) k).2 h
    | some u =>
      cases j with
      | zero =>
        refine ⟨?_, ?_⟩
        · intro t h
          simp at h
          simp [fillRow, h]
        · intro h
          simp at h
      | succ k =>
        refine ⟨?_, ?_⟩
        · intro t h
          simp only [fillRow, List.getElem?_cons_succ] at h ⊢
          exact (ih noise (base + 1) k).1 t h
        · intro h
          simp only [fillRow, List.getElem?_cons_succ] at h ⊢
          exact (ih noise (base + 1) k).2 h

theorem fillNoise_slot : ∀ (rows : List (List (Option Tok))) (noise : Nat → Tok)
    (base r : Nat) (row : List (Option Tok)),
    rows[r]? = some row →
    ∃ grow, (fillNoise noise base rows)[r]? = some grow ∧
      (∀ (j : Nat) (t : Tok), row[j]? = some (some t) → grow[j]? = some t) ∧
      (∀ j : Nat, row[j]? = some none → ∃ i, grow[j]? = some (noise i)) := by
  intro rows
  induction rows with
  | nil =>
    intro noise base r row h
    simp at h
  | cons r0 rest ih =>
    intro noise base r row h
    cases r with
    | zero =>
      simp only [List.getElem?_cons_zero, Option.some_inj] at h
      subst h
      refine ⟨fillRow noise base r0, by simp [fillNoise], ?_, ?_⟩
      · intro j t hj
        exact (fillRow_getElem? r0 noise base j).1 t hj
      · intro j hj
        exact (fillRow_getElem? r0 noise base j).2 hj
    | succ r' =>
      simp only [List.getElem?_cons_succ] at h
      obtain ⟨grow, hg, h1, h2⟩ := ih noise (base + r0.length) r' row h
      exact ⟨grow, by simpa [fillNoise] using hg, h1, h2⟩

/-- C9: in every grid `encode` returns, a slot that the placement stage
left empty holds a noise token satisfying the rejection conditions (two
alphanumeric characters, not an anchor, reverse not an anchor, not a
message token), slots the placers filled keep their tokens, and a noise
token whose reverse is a message token is not excluded (witnessed for
password `"hello"`, message `["hi"]` by the valid noise token `"ih"`). -/
theorem C9_noise_exclusivity :
    (∀ (text pw : List Char) (w c : Nat) (cs : EncodeChoices)
      (placed : List (List (Option Tok))),
      (∀ i, noiseTokenOk (get_password_tokens pw) (msgTokensOf text cs) (cs.noise i)) →
      placedGrid text pw w c cs = .ok placed →
      encodeModel text pw w c cs = .ok (fillNoise cs.noise 0 placed) ∧
      (∀ (r j : Nat) (row : List (Option Tok)), placed[r]? = some row →
        row[j]? = some none →
        ∃ nt, ((fillNoise cs.noise 0 placed)[r]?).bind (fun grow => grow[j]?) = some nt ∧
          noiseTokenOk (get_password_tokens pw) (msgTokensOf text cs) nt) ∧
      (∀ (r j : Nat) (row : List (Option Tok)) (t : Tok), placed[r]? = some row →
        row[j]? = some (some t) →
        ((fillNoise cs.noise 0 placed)[r]?).bind (fun grow => grow[j]?) = some t)) ∧
    (∃ nt : Tok, noiseTokenOk (get_password_tokens "hello".toList) [['h','i']] nt ∧
      nt.reverse ∈ ([['h','i']] : List Tok)) := by
  constructor
  · intro text pw w c cs placed hnoise hpg
    refine ⟨encodeModel_ok hpg, ?_, ?_⟩
    · intro r j row hr hj
      obtain ⟨grow, hg, _, h2⟩ := fillNoise_slot placed cs.noise 0 r row hr
      obtain ⟨i, hi⟩ := h2 j hj
      refine ⟨cs.noise i, ?_, hnoise i⟩
      rw [hg]
      simpa using hi
    · intro r j row t hr hj
      obtain ⟨grow, hg, h1, _⟩ := fillNoise_slot placed cs.noise 0 r row hr
      rw [hg]
      simpa using h1 j t hj
  · exact ⟨['i','h'], by decide, by decide⟩

/-- Concrete draw record used to exercise the noise stage: drawn anchor
`"he"`, fallback placement, every accepted noise token `"qw"`. -/
def noiseDemoChoices : EncodeChoices :=
  ⟨'x', fun _ => (['h','e'], ['h','e']), ['h','e'], 0, none, fun _ => ['q','w']⟩

/-- Witness for C9: in the grid encoding `"hi"` with password `"hello"`
in a 2 × 4 grid, the empty slot at row 0, column 2 receives a token
satisfying the noise rejection conditions. -/
theorem C9_noise_exclusivity_witness :
    ∃ nt, ((fillNoise noiseDemoChoices.noise 0
        [[some ['h','i'], some ['h','e'], none, none],
         [none, none, none, none]])[0]?).bind (fun grow => grow[2]?) = some nt ∧
      noiseTokenOk (get_password_tokens "hello".toList)
        (msgTokensOf "hi".toList noiseDemoChoices) nt := by
  have hpg : placedGrid "hi".toList "hello".toList 4 8 noiseDemoChoices =
      .ok [[some ['h','i'], some ['h','e'], none, none], [none, none, none, none]] := by
    rfl
  obtain ⟨-, hslots, -⟩ := C9_noise_exclusivity.1 "hi".toList "hello".toList 4 8
    noiseDemoChoices
    [[some ['h','i'], some ['h','e'], none, none], [none, none, none, none]]
    (fun i =>
      (by decide : noiseTokenOk (get_password_tokens "hello".toList)
        (msgTokensOf "hi".toList noiseDemoChoices) ['q','w'])) hpg
  exact hslots 0 2 [some ['h','i'], some ['h','e'], none, none] rfl rfl

theorem writeBack_exact : ∀ (rows : List (List (Option Tok))) (L : Nat),
    (∀ row ∈ rows, row.length = L) → writeBack rows L rows.flatten = .ok rows := by
  intro rows
  induction rows with
  | nil => intro L _; rfl
  | cons r rest ih =>
    intro L h
    have hr : r.length = L := h r (List.mem_cons_self r rest)
    rw [List.flatten_cons, writeBack,
      if_pos ⟨by omega, by rw [List.length_append]; omega⟩]
    have htake : (r ++ rest.flatten).take L = r := by
      rw [← hr]
      exact List.take_left r rest.flatten
    have hdrop : (r ++ rest.flatten).drop L = rest.flatten := by
      rw [← hr]
      exact List.drop_left r rest.flatten
    rw [hdrop, ih L fun row hrow => h row (List.mem_cons_of_mem r hrow), htake]

/-- With no chunks to place, both placement paths leave a uniform grid
unchanged. -/
theorem placementStage_no_chunks : ∀ (r : List (Option Tok))
    (rest : List (List (Option Tok))) (L : Nat) (pc : Option (List Nat)),
    (∀ row ∈ r :: rest, row.length = L) →
    placementStage (r :: rest) [] pc = .ok (r :: rest) := by
  intro r rest L pc hlen
  have hr : r.length = L := hlen r (List.mem_cons_self r rest)
  have hwb : writeBack (r :: rest) r.length (r :: rest).flatten = .ok (r :: rest) := by
    rw [hr]
    exact writeBack_exact (r :: rest) L hlen
  cases pc with
  | none =>
    show runTightPath (r :: rest) r.length ((r :: rest).length * r.length)
      (r :: rest).flatten [] = .ok (r :: rest)
    simp only [runTightPath, tightLoop]
    exact hwb
  | some starts =>
    cases starts with
    | nil =>
      show (if spreadStartsOk r.length ((r :: rest).length * r.length)
          (r :: rest).flatten [] [] 0 = true then
        writeBack (r :: rest) r.length (placeAt (r :: rest).flatten [] [])
        else runTightPath (r :: rest) r.length ((r :: rest).length * r.length)
          (r :: rest).flatten []) = .ok (r :: rest)
      have hcond : spreadStartsOk r.length ((r :: rest).length * r.length)
          (r :: rest).flatten [] [] 0 = true := rfl
      rw [if_pos hcond]
      exact hwb
    | cons s ss =>
      show (if spreadStartsOk r.length ((r :: rest).length * r.length)
          (r :: rest).flatten [] (s :: ss) 0 = true then
        writeBack (r :: rest) r.length (placeAt (r :: rest).flatten [] (s :: ss))
        else runTightPath (r :: rest) r.length ((r :: rest).length * r.length)
          (r :: rest).flatten []) = .ok (r :: rest)
      rw [if_neg (by simp [spreadStartsOk])]
      simp only [runTightPath, tightLoop]
      exact hwb

theorem fillRow_all_none : ∀ (row : List (Option Tok)) (noise : Nat → Tok) (base : Nat),
    (∀ s ∈ row, s = none) → ∀ t ∈ fillRow noise base row, ∃ i, t = noise i := by
  intro row
  induction row with
  | nil => intro noise base _ t ht; simp [fillRow] at ht
  | cons s rest ih =>
    intro noise base h t ht
    have hs : s = none := h s (List.mem_cons_self s rest)
    subst hs
    simp only [fillRow, List.mem_cons] at ht
    rcases ht with ht | ht
    · exact ⟨base, ht⟩
    · exact ih noise (base + 1) (fun u hu => h u (List.mem_cons_of_mem none hu)) t ht

theorem fillNoise_all_noise : ∀ (rows : List (List (Option Tok))) (noise : Nat → Tok)
    (base : Nat), (∀ row ∈ rows, ∀ s ∈ row, s = none) →
    ∀ row2 ∈ fillNoise noise base rows, ∀ t ∈ row2, ∃ i, t = noise i := by
  intro rows
  induction rows with
  | nil => intro noise base _ row2 hrow2; simp [fillNoise] at hrow2
  | cons r0 rest ih =>
    intro noise base h row2 hrow2 t ht
    simp only [fillNoise, List.mem_cons] at hrow2
    rcases hrow2 with hrow2 | hrow2
    · subst hrow2
      exact fillRow_all_none r0 noise base (h r0 (List.mem_cons_self r0 rest)) t ht
    · exact ih noise (base + r0.length)
        (fun row hrow => h row (List.mem_cons_of_mem r0 hrow)) row2 hrow2 t ht

theorem fillNoise_length_map : ∀ (rows : List (List (Option Tok))) (noise : Nat → Tok)
    (base : Nat), (fillNoise noise base rows).map List.length = rows.map List.length := by
  intro rows
  induction rows with
  | nil => intro noise base; rfl
  | cons r0 rest ih =>
    intro noise base
    simp only [fillNoise, List.map_cons, fillRow_length, ih]

/-- C10: encoding the empty text raises no error for any password —
anchor-free passwords included, since no anchor draw ever happens — as
long as the grid is a perfect rectangle (`c ≤ w` or `w ∣ c`): the result
is a grid of exactly `c` slots, every one holding an accepted noise
token. -/
theorem C10_empty_text :
    ∀ (pw : List Char) (w c : Nat) (cs : EncodeChoices),
      1 ≤ w → 1 ≤ c → (c ≤ w ∨ w ∣ c) →
      (∀ i, noiseTokenOk (get_password_tokens pw) [] (cs.noise i)) →
      ∃ g, encodeModel [] pw w c cs = .ok g ∧
        (g.map List.length).sum = c ∧
        (∀ row ∈ g, ∀ t ∈ row, noiseTokenOk (get_password_tokens pw) [] t) := by
  intro pw w c cs hw hc hcw hnoise
  obtain ⟨L, hL, hrep, hprod⟩ := buildLines_uniform w c hw hc hcw
  have h1 : buildChunks pw cs.draws (msgTokensOf [] cs) 0 = .ok [] := rfl
  have h2 : padStep pw (needsPadding []) cs.padAnchor cs.padLine (buildLines w c) =
      .ok (buildLines w c) := rfl
  cases hbl : buildLines w c with
  | nil =>
    rw [hbl] at hprod
    simp at hprod
    omega
  | cons r rest =>
    rw [hbl] at hrep hprod
    have hlenall : ∀ row ∈ r :: rest, row.length = L := by
      intro row hrow
      rw [hrep] at hrow
      rw [List.eq_of_mem_replicate hrow]
      exact List.length_replicate _ _
    have hallnone : ∀ row ∈ r :: rest, ∀ s ∈ row, s = none := by
      intro row hrow s hs
      rw [hrep] at hrow
      rw [List.eq_of_mem_replicate hrow] at hs
      exact List.eq_of_mem_replicate hs
    have hpg : placedGrid [] pw w c cs = .ok (r :: rest) := by
      rw [placedGrid_eq_placement h1 h2, hbl,
        placementStage_no_chunks r rest L cs.placement hlenall]
    refine ⟨fillNoise cs.noise 0 (r :: rest), encodeModel_ok hpg, ?_, ?_⟩
    · rw [fillNoise_length_map]
      have : (r :: rest).map List.length = List.replicate (r :: rest).length L := by
        rw [hrep]
        simp
      rw [this, List.sum_replicate, smul_eq_mul]
      rw [hrep] at hprod
      simpa using hprod
    · intro row hrow t ht
      obtain ⟨i, hti⟩ :=
        fillNoise_all_noise (r :: rest) cs.noise 0 hallnone row hrow t ht
      rw [hti]
      exact hnoise i

/-- Witness for C10: the anchor-free password `"aa"` encodes the empty
text into a 2 × 2 all-noise grid without error. -/
theorem C10_empty_text_witness :
    ∃ g, encodeModel [] "aa".toList 2 4
        ⟨'x', fun _ => (['q','w'], ['q','w']), ['q','w'], 0, none, fun _ => ['q','w']⟩ =
        .ok g ∧
      (g.map List.length).sum = 4 ∧
      (∀ row ∈ g, ∀ t ∈ row, noiseTokenOk (get_password_tokens "aa".toList) [] t) :=
  C10_empty_text "aa".toList 2 4 _ (by decide) (by decide) (Or.inr ⟨2, rfl⟩)
    (fun _ => (by decide : noiseTokenOk (get_password_tokens "aa".toList) [] ['q','w']))

/-- The chunk built for a message token has 3 tokens when the token is
itself an anchor and 2 tokens otherwise. -/
theorem buildChunk_ok_length : ∀ (p : List Char) (m : Tok) (ch : Tok × Tok)
    (chv : List Tok), buildChunk p m ch = .ok chv →
    chv.length = if m ∈ get_password_tokens p then 3 else 2 := by
  intro p m ch chv h
  simp only [buildChunk] at h
  by_cases h1 : m ∈ get_password_tokens p
  · rw [if_pos h1] at h
    rw [if_pos h1]
    split at h
    · split at h
      · cases h
      · injection h with h2
        rw [← h2]
        rfl
    · split at h
      · cases h
      · injection h with h2
        rw [← h2]
        rfl
  · rw [if_neg h1] at h
    rw [if_neg h1]
    split at h
    · split at h
      · cases h
      · split at h
        · injection h with h2
          rw [← h2]
          rfl
        · split at h
          · cases h
          · injection h with h2
            rw [← h2]
            rfl
    · split at h
      · cases h
      · split at h
        · injection h with h2
          rw [← h2]
          rfl
        · injection h with h2
          rw [← h2]
          rfl

/-- Slots needed by all chunks: 3 per anchor message token, 2 per other
message token. -/
def neededSlots (pw : List Char) (toks : List Tok) : Nat :=
  (toks.map fun m => if m ∈ get_password_tokens pw then 3 else 2).sum

/-- A successful chunk-building pass needs exactly `neededSlots` grid
slots. -/
theorem buildChunks_ok_sum : ∀ (toks : List Tok) (p : List Char)
    (draws : Nat → Tok × Tok) (start : Nat) (chunks : List (List Tok)),
    buildChunks p draws toks start = .ok chunks →
    (chunks.map List.length).sum = neededSlots p toks := by
  intro toks
  induction toks with
  | nil =>
    intro p draws start chunks h
    rw [buildChunks] at h
    injection h with h2
    rw [← h2]
    rfl
  | cons m ms ih =>
    intro p draws start chunks h
    rw [buildChunks] at h
    cases hbc : buildChunk p m (draws start) with
    | error e =>
      rw [hbc] at h
      cases h
    | ok chv =>
      rw [hbc] at h
      cases hrest : buildChunks p draws ms (start + 1) with
      | error e =>
        rw [hrest] at h
        cases h
      | ok cs =>
        rw [hrest] at h
        injection h with h2
        rw [← h2]
        simp only [List.map_cons, List.sum_cons, neededSlots, buildChunk_ok_length p m
          (draws start) chv hbc, ih p draws (start + 1) cs hrest]

theorem count_none_set : ∀ (flat : List (Option Tok)) (pos : Nat) (t : Tok),
    flat[pos]? = some none →
    (flat.set pos (some t)).count (none : Option Tok) + 1 = flat.count none := by
  intro flat
  induction flat with
  | nil => intro pos t h; simp at h
  | cons s rest ih =>
    intro pos t h
    cases pos with
    | zero =>
      simp only [List.getElem?_cons_zero, Option.some_inj] at h
      subst h
      simp [List.count_cons]
    | succ q =>
      simp only [List.getElem?_cons_succ] at h
      simp only [List.set_cons_succ, List.count_cons]
      have := ih q t h
      omega

theorem count_writeChunk : ∀ (ch : List Tok) (flat : List (Option Tok)) (pos : Nat),
    (∀ k, k < ch.length → flat[pos + k]? = some none) →
    (writeChunk flat pos ch).count (none : Option Tok) + ch.length = flat.count none := by
  intro ch
  induction ch with
  | nil => intro flat pos _; rfl
  | cons t ts ih =>
    intro flat pos h
    have h0 : flat[pos]? = some none := by
      have := h 0 (by simp)
      simpa using this
    have hset : ∀ k, k < ts.length → (flat.set pos (some t))[(pos + 1) + k]? = some none := by
      intro k hk
      rw [List.getElem?_set_ne (by omega)]
      have := h (k + 1) (by simp only [List.length_cons]; omega)
      have e : pos + (k + 1) = (pos + 1) + k := by omega
      rw [e] at this
      exact this
    have hrec := ih (flat.set pos (some t)) (pos + 1) hset
    have hone := count_none_set flat pos t h0
    simp only [writeChunk, List.length_cons]
    omega

/-- A committed spread placement covers at least the sum of the chunk
lengths in empty slots: capacity in empty slots bounds it from above. -/
theorem spreadStartsOk_count : ∀ (cs : List (List Tok)) (ps : List Nat)
    (lineLen totalSlots : Nat) (flat : List (Option Tok)) (low : Nat),
    spreadStartsOk lineLen totalSlots flat cs ps low = true →
    (cs.map List.length).sum ≤ flat.count (none : Option Tok) := by
  intro cs
  induction cs with
  | nil => intro ps lineLen totalSlots flat low _; simp
  | cons ch cs ih =>
    intro ps lineLen totalSlots flat low h
    cases ps with
    | nil => rw [spreadStartsOk] at h; cases h
    | cons p ps' =>
      rw [spreadStartsOk] at h
      simp only [Bool.and_eq_true, decide_eq_true_eq, List.all_eq_true, List.mem_range] at h
      obtain ⟨⟨⟨⟨_, _⟩, _⟩, hfree⟩, hrest⟩ := h
      have hfree' : ∀ k, k < ch.length → flat[p + k]? = some none := by
        intro k hk
        simpa using hfree k hk
      have hcount := count_writeChunk ch flat p hfree'
      have hih := ih ps' lineLen totalSlots (writeChunk flat p ch) (p + ch.length) hrest
      simp only [List.map_cons, List.sum_cons]
      omega

theorem count_lt_of_mem_ne : ∀ (l : List (Option Tok)) (x : Option Tok),
    x ∈ l → x ≠ none → l.count (none : Option Tok) < l.length := by
  intro l
  induction l with
  | nil => intro x hx _; simp at hx
  | cons a rest ih =>
    intro x hx hne
    rcases List.mem_cons.mp hx with heq | hmem
    · subst heq
      have h1 : rest.count (none : Option Tok) ≤ rest.length := List.count_le_length _ _
      simp only [List.count_cons, List.length_cons]
      have hxf : (x == none) = false := beq_eq_false_iff_ne.mpr hne
      rw [hxf]
      simpa using Nat.lt_succ_of_le h1
    · have := ih x hmem hne
      simp only [List.count_cons, List.length_cons]
      split <;> omega

theorem flatten_length_uniform : ∀ (rows : List (List (Option Tok))) (L : Nat),
    (∀ row ∈ rows, row.length = L) → rows.flatten.length = rows.length * L := by
  intro rows
  induction rows with
  | nil => intro L _; simp
  | cons r rest ih =>
    intro L h
    simp only [List.flatten_cons, List.length_append, List.length_cons,
      h r (List.mem_cons_self r rest),
      ih L fun row hrow => h row (List.mem_cons_of_mem r hrow)]
    ring

theorem probeFree_no_error : ∀ (len : Nat) (flat : List (Option Tok)) (pos : Nat),
    pos + len ≤ flat.length → ∀ e, probeFree flat pos len ≠ .error e := by
  intro len
  induction len with
  | zero => intro flat pos _ e h; cases h
  | succ k ih =>
    intro flat pos hlen e h
    rw [probeFree] at h
    cases hflat : flat[pos]? with
    | none =>
      have : pos < flat.length := by omega
      rw [List.getElem?_eq_getElem this] at hflat
      cases hflat
    | some s =>
      rw [hflat] at h
      cases s with
      | none => exact ih flat (pos + 1) (by omega) e h
      | some t => cases h

theorem tightScan_no_error : ∀ (fuel lineLen totalSlots : Nat) (flat : List (Option Tok))
    (len pos : Nat), totalSlots ≤ flat.length →
    ∀ e, tightScan lineLen totalSlots flat len fuel pos ≠ .error e := by
  intro fuel
  induction fuel with
  | zero => intro lineLen totalSlots flat len pos _ e h; cases h
  | succ f ih =>
    intro lineLen totalSlots flat len pos hts e h
    rw [tightScan] at h
    by_cases h1 : pos + len ≤ totalSlots
    · rw [if_pos h1] at h
      by_cases h2 : pos % lineLen + len ≤ lineLen
      · rw [if_pos h2] at h
        cases hp : probeFree flat pos len with
        | error e2 =>
          exact probeFree_no_error len flat pos (by omega) e2 hp
        | ok b =>
          rw [hp] at h
          cases b with
          | true => cases h
          | false => exact ih lineLen totalSlots flat len (pos + 1) hts e h
      · rw [if_neg h2] at h
        exact ih lineLen totalSlots flat len (pos + 1) hts e h
    · rw [if_neg h1] at h
      cases h

/-- When the nominal slot count does not exceed the flat buffer (no short
last row), the tight-fit loop either succeeds or reports exhausted
capacity — never an index error. -/
theorem tightLoop_cases : ∀ (cs : List (List Tok)) (lineLen totalSlots : Nat)
    (flat : List (Option Tok)) (pos : Nat), totalSlots ≤ flat.length →
    (∃ f2, tightLoop lineLen totalSlots flat pos cs = .ok f2) ∨
    tightLoop lineLen totalSlots flat pos cs = .error .placementCapacity := by
  intro cs
  induction cs with
  | nil =>
    intro lineLen totalSlots flat pos _
    exact Or.inl ⟨flat, rfl⟩
  | cons ch cs ih =>
    intro lineLen totalSlots flat pos hts
    rw [tightLoop]
    cases hscan : tightScan lineLen totalSlots flat ch.length (totalSlots + 2) pos with
    | error e =>
      exact absurd hscan (tightScan_no_error _ _ _ _ _ _ hts e)
    | ok o =>
      cases o with
      | none => exact Or.inr rfl
      | some p =>
        have hlen : (writeChunk flat p ch).length = flat.length := writeChunk_length ch flat p
        rcases ih lineLen totalSlots (writeChunk flat p ch) (p + ch.length)
          (by omega) with ⟨f2, hf2⟩ | herr
        · exact Or.inl ⟨f2, hf2⟩
        · exact Or.inr herr

/-- The padding marker writes the drawn anchor into slot 0 or the last
slot of the drawn row. -/
theorem padStep_true_spec (pw : List Char) (anchor : Tok) (li : Nat)
    (lines : List (List (Option Tok)))
    (hanch : anchor ∈ get_password_tokens pw) (hne : lines ≠ []) :
    ∃ j, padStep pw true anchor li lines =
      .ok (lines.set li ((lines.getD li []).set j (some anchor))) ∧
      (0 < (lines.getD li []).length → j < (lines.getD li []).length) := by
  have hptoks : get_password_tokens pw ≠ [] := List.ne_nil_of_mem hanch
  unfold padStep
  rw [if_pos rfl, if_neg hptoks, if_neg hne]
  cases hd : get_direction pw anchor with
  | before => exact ⟨0, rfl, fun h => h⟩
  | after =>
    exact ⟨(lines.getD li []).length - 1, rfl, fun h => by omega⟩

/-- When the chunks need more slots than the grid has empty ones, both
placement paths of a uniform grid fail with the capacity error. -/
theorem placement_kill : ∀ (lines2 : List (List (Option Tok)))
    (chunks : List (List Tok)) (pc : Option (List Nat)) (L : Nat),
    (∀ row ∈ lines2, row.length = L) → lines2 ≠ [] →
    lines2.flatten.count (none : Option Tok) < (chunks.map List.length).sum →
    placementStage lines2 chunks pc = .error .placementCapacity := by
  intro lines2 chunks pc L hrows2 hne2 hcount
  cases lines2 with
  | nil => exact absurd rfl hne2
  | cons r2 rest2 =>
    have hr2 : r2.length = L := hrows2 r2 (List.mem_cons_self r2 rest2)
    have hflatlen : (r2 :: rest2).flatten.length = (r2 :: rest2).length * L :=
      flatten_length_uniform _ L hrows2
    have hts : (r2 :: rest2).length * r2.length ≤ (r2 :: rest2).flatten.length := by
      rw [hr2]
      omega
    have hkill : ∀ starts, ¬ spreadStartsOk r2.length ((r2 :: rest2).length * r2.length)
        (r2 :: rest2).flatten chunks starts 0 = true := by
      intro starts hok
      have := spreadStartsOk_count chunks starts _ _ _ _ hok
      omega
    have htight : runTightPath (r2 :: rest2) r2.length
        ((r2 :: rest2).length * r2.length) (r2 :: rest2).flatten chunks =
        .error .placementCapacity := by
      rcases tightLoop_cases chunks r2.length ((r2 :: rest2).length * r2.length)
        (r2 :: rest2).flatten 0 hts with ⟨f2, hf2⟩ | herr
      · exfalso
        obtain ⟨ps, hok, _⟩ := tightLoop_refine chunks _ _ _ _ 0 hf2
        exact hkill ps hok
      · simp only [runTightPath]
        rw [herr]
    cases pc with
    | none => exact htight
    | some starts =>
      show (if spreadStartsOk r2.length ((r2 :: rest2).length * r2.length)
          (r2 :: rest2).flatten chunks starts 0 = true then
        writeBack (r2 :: rest2) r2.length (placeAt (r2 :: rest2).flatten chunks starts)
        else runTightPath (r2 :: rest2) r2.length ((r2 :: rest2).length * r2.length)
          (r2 :: rest2).flatten chunks) = .error .placementCapacity
      rw [if_neg (hkill starts)]
      exact htight

/-- C6 (amended): on a grid with no short last row (`c ≤ w` or `w ∣ c`)
with `c ≥ 1`, when chunk building succeeds, the padding draw (if any) is
valid, and the capacity is below the slots needed by all chunks plus the
padding marker, `encode` fails with `PlacementCapacityExceeded` — even
the dense tight-fit fallback cannot fit the chunks. -/
theorem C6_capacity_error_amended :
    ∀ (text pw : List Char) (w c : Nat) (cs : EncodeChoices) (chunks : List (List Tok)),
      1 ≤ w → 1 ≤ c → (c ≤ w ∨ w ∣ c) →
      buildChunks pw cs.draws (msgTokensOf text cs) 0 = .ok chunks →
      (needsPadding text = true → cs.padAnchor ∈ get_password_tokens pw ∧
        cs.padLine < (buildLines w c).length) →
      c < neededSlots pw (msgTokensOf text cs) + (if needsPadding text then 1 else 0) →
      encodeModel text pw w c cs = .error .placementCapacity := by
  intro text pw w c cs chunks hw hc hcw hchunks hpadh hcap
  obtain ⟨L, hL, hrep, hprod⟩ := buildLines_uniform w c hw hc hcw
  have hsum := buildChunks_ok_sum (msgTokensOf text cs) pw cs.draws 0 chunks hchunks
  have hrows : ∀ row ∈ buildLines w c, row.length = L := by
    intro row hrow
    rw [hrep] at hrow
    rw [List.eq_of_mem_replicate hrow]
    exact List.length_replicate _ _
  have hlnz : (buildLines w c).length ≠ 0 := by
    intro h0
    rw [h0, Nat.zero_mul] at hprod
    omega
  have hlinesne : buildLines w c ≠ [] := by
    intro h0
    rw [h0] at hlnz
    exact hlnz rfl
  have hflatlen : (buildLines w c).flatten.length = c := by
    rw [flatten_length_uniform _ L hrows, hprod]
  cases hneed : needsPadding text with
  | false =>
    have hpad : padStep pw (needsPadding text) cs.padAnchor cs.padLine
        (buildLines w c) = .ok (buildLines w c) := by
      rw [hneed]
      rfl
    have hcountle := List.count_le_length (none : Option Tok) (buildLines w c).flatten
    rw [hneed] at hcap
    simp at hcap
    have hlt : (buildLines w c).flatten.count (none : Option Tok) <
        (chunks.map List.length).sum := by
      rw [hsum]
      omega
    have hpg : placedGrid text pw w c cs = .error .placementCapacity := by
      rw [placedGrid_eq_placement hchunks hpad]
      exact placement_kill (buildLines w c) chunks cs.placement L hrows hlinesne hlt
    exact encodeModel_error hpg
  | true =>
    obtain ⟨hanch, hli⟩ := hpadh hneed
    obtain ⟨j, hpadeq, hjlt⟩ :=
      padStep_true_spec pw cs.padAnchor cs.padLine (buildLines w c) hanch hlinesne
    have hrow0 : (buildLines w c).getD cs.padLine [] ∈ buildLines w c :=
      getD_mem_of_lt _ _ _ hli
    have hrow0len : ((buildLines w c).getD cs.padLine []).length = L := hrows _ hrow0
    have hjlt' : j < ((buildLines w c).getD cs.padLine []).length := hjlt (by omega)
    have hrows2 : ∀ row ∈ (buildLines w c).set cs.padLine
        (((buildLines w c).getD cs.padLine []).set j (some cs.padAnchor)),
        row.length = L := by
      intro row hrow
      rcases List.mem_or_eq_of_mem_set hrow with h | h
      · exact hrows row h
      · rw [h, List.length_set]
        exact hrow0len
    have hne2 : (buildLines w c).set cs.padLine
        (((buildLines w c).getD cs.padLine []).set j (some cs.padAnchor)) ≠ [] := by
      intro h0
      have := congrArg List.length h0
      rw [List.length_set] at this
      exact hlnz (by simpa using this)
    have hmemanchor : (some cs.padAnchor : Option Tok) ∈
        ((buildLines w c).set cs.padLine
          (((buildLines w c).getD cs.padLine []).set j (some cs.padAnchor))).flatten := by
      apply List.mem_flatten.mpr
      refine ⟨((buildLines w c).getD cs.padLine []).set j (some cs.padAnchor), ?_, ?_⟩
      · have hlt2 : cs.padLine < ((buildLines w c).set cs.padLine
            (((buildLines w c).getD cs.padLine []).set j (some cs.padAnchor))).length := by
          rw [List.length_set]
          exact hli
        have hmem := List.getElem_mem hlt2
        rw [List.getElem_set_self hlt2] at hmem
        exact hmem
      · have hlt3 : j < (((buildLines w c).getD cs.padLine []).set j
            (some cs.padAnchor)).length := by
          rw [List.length_set]
          exact hjlt'
        have hmem := List.getElem_mem hlt3
        rw [List.getElem_set_self hlt3] at hmem
        exact hmem
    have hflatlen2 : (((buildLines w c).set cs.padLine
        (((buildLines w c).getD cs.padLine []).set j (some cs.padAnchor))).flatten).length =
        c := by
      rw [flatten_length_uniform _ L hrows2, List.length_set, hprod]
    have hcountlt : (((buildLines w c).set cs.padLine
        (((buildLines w c).getD cs.padLine []).set j (some cs.padAnchor))).flatten).count
        (none : Option Tok) < c := by
      have h1 := count_lt_of_mem_ne _ _ hmemanchor (by simp)
      omega
    rw [hneed] at hcap
    simp at hcap
    have hlt : (((buildLines w c).set cs.padLine
        (((buildLines w c).getD cs.padLine []).set j (some cs.padAnchor))).flatten).count
        (none : Option Tok) < (chunks.map List.length).sum := by
      rw [hsum]
      omega
    have hpad : padStep pw (needsPadding text) cs.padAnchor cs.padLine
        (buildLines w c) = .ok ((buildLines w c).set cs.padLine
          (((buildLines w c).getD cs.padLine []).set j (some cs.padAnchor))) := by
      rw [hneed]
      exact hpadeq
    have hpg : placedGrid text pw w c cs = .error .placementCapacity := by
      rw [placedGrid_eq_placement hchunks hpad]
      exact placement_kill _ chunks cs.placement L hrows2 hne2 hlt
    exact encodeModel_error hpg

/-- Concrete draw record for the capacity scenarios: every anchor draw is
`"he"`, all spread attempts fail (fallback), noise `"qw"`. -/
def capacityDemoChoices : EncodeChoices :=
  ⟨'x', fun _ => (['h','e'], ['h','e']), ['h','e'], 0, none, fun _ => ['q','w']⟩

/-- Counterexample for C6 as stated: text `"abcdefghij"` (5 chunks, 10
slots needed), password `"hello"`, `line_max = 4`, `total_max = 9 < 10`,
with valid draws — yet `encode` fails with an index error, not
`PlacementCapacityExceeded`: the short last row makes the fallback probe
`flat[9]` on a 9-slot buffer before it can report exhausted capacity. -/
theorem C6_capacity_counterexample :
    get_password_tokens "hello".toList ≠ [] ∧
    (∀ i, i < (msgTokensOf "abcdefghij".toList capacityDemoChoices).length →
      chunkChoiceOk "hello".toList
        ((msgTokensOf "abcdefghij".toList capacityDemoChoices).getD i [])
        (capacityDemoChoices.draws i)) ∧
    9 < neededSlots "hello".toList (msgTokensOf "abcdefghij".toList capacityDemoChoices) +
      (if needsPadding "abcdefghij".toList then 1 else 0) ∧
    encodeModel "abcdefghij".toList "hello".toList 4 9 capacityDemoChoices =
      .error .indexError := by
  refine ⟨by decide, by decide, by decide, by rfl⟩

/-- Witness for the amended C6: same text and password on a uniform
`2 × 4` grid (8 < 10 slots) fails with `PlacementCapacityExceeded`. -/
theorem C6_capacity_error_amended_witness :
    encodeModel "abcdefghij".toList "hello".toList 4 8 capacityDemoChoices =
      .error .placementCapacity := by
  have hchunks : buildChunks "hello".toList capacityDemoChoices.draws
      (msgTokensOf "abcdefghij".toList capacityDemoChoices) 0 =
      .ok [[['a','b'], ['h','e']], [['c','d'], ['h','e']], [['e','f'], ['h','e']],
        [['g','h'], ['h','e']], [['i','j'], ['h','e']]] := by rfl
  exact C6_capacity_error_amended "abcdefghij".toList "hello".toList 4 8
    capacityDemoChoices _ (by decide) (by decide) (Or.inr ⟨2, rfl⟩) hchunks
    (by decide) (by decide)
